import Mathlib

/-!
Shallow embedding of `scripts/dependency_tracker.py` (class `DependencyTracker`).

Modelling conventions:
* Python `dict` (insertion ordered, unique keys) is modelled as an association
  list `List (κ × α)`; `dictInsert` mirrors `d[k] = v` (overwrite in place,
  append at the end when the key is new) and `dictLookup` mirrors `d[k]` /
  `d.get(k)`.
* Task and blocker identifiers (`uuid.uuid4()` strings) are modelled as `Nat`;
  the generated identifier is passed to each creating operation as an input,
  and its freshness (which `uuid4` provides probabilistically) appears as a
  hypothesis where a theorem needs it.
* `datetime.now()` is modelled by an explicit `now : Nat` argument (time in
  days); `(d2 - d1).days` becomes integer subtraction.
* Python `float` fields (`completion_percentage`, `remaining_days`) are
  modelled as `Rat`; the arithmetic the claims mention is exact at the scale
  involved, and no claim is about rounding of floats.
* A Python function that can raise is modelled as returning
  `Option PyError × <state>` (the state component is the post-mutation state,
  since Python mutates in place before some raises can happen) or an `Option`
  result for pure computations that can raise.
-/

namespace DepTrack

/-- Errors raised by the Python code (`ValueError`, `KeyError`). -/
inductive PyError
  | valueError (msg : String)
  | keyError (msg : String)
deriving Repr, DecidableEq

/-- `d[k] = v` on a Python dict: overwrite the existing entry in place, or
append a new entry at the end. -/
def dictInsert {κ α : Type} [DecidableEq κ] (k : κ) (v : α) :
    List (κ × α) → List (κ × α)
  | [] => [(k, v)]
  | (k0, v0) :: rest =>
      if k0 = k then (k, v) :: rest else (k0, v0) :: dictInsert k v rest

/-- `d.get(k)` on a Python dict. -/
def dictLookup {κ α : Type} [DecidableEq κ] (k : κ) :
    List (κ × α) → Option α
  | [] => none
  | (k0, v0) :: rest => if k0 = k then some v0 else dictLookup k rest

/-- `TaskStatus` enum of the source. -/
inductive TaskStatus
  | not_started
  | in_progress
  | blocked
  | completed
  | on_hold
deriving Repr, DecidableEq

/-- `Priority` enum of the source. -/
inductive Priority
  | critical
  | high
  | medium
  | low
deriving Repr, DecidableEq

/-- `BlockerType` enum of the source. -/
inductive BlockerType
  | dependency
  | resource
  | technical
  | external
deriving Repr, DecidableEq

/-- The `Task` dataclass. -/
structure Task where
  id : Nat
  name : String
  agent : String
  status : TaskStatus
  priority : Priority
  estimated_days : Int
  actual_days : Int
  start_date : Option Nat
  end_date : Option Nat
  dependencies : List Nat
  blocks : List Nat
  deliverables : List String
  success_criteria : List String
  completion_percentage : Rat
  notes : String
deriving Repr, DecidableEq

/-- The `Blocker` dataclass. -/
structure Blocker where
  id : Nat
  task_id : Nat
  blocker_type : BlockerType
  description : String
  impact : String
  reported_date : Nat
  resolved_date : Option Nat
  assigned_to : String
  resolution_notes : String
  escalated : Bool
deriving Repr, DecidableEq

/-- The `CriticalPath` dataclass. -/
structure CriticalPath where
  path : List Nat
  total_duration : Int
  total_float : Int
  risk_level : String
  bottlenecks : List Nat
deriving Repr, DecidableEq

/-- The `DependencyTracker` state: the two stores plus the project window.
`project_days` models `(project_end_date - project_start_date).days`,
which `__init__` fixes to 112. -/
structure DependencyTracker where
  tasks : List (Nat × Task)
  blockers : List (Nat × Blocker)
  project_days : Int
deriving Repr, DecidableEq

namespace DependencyTracker

/-- `DependencyTracker.__init__`. -/
def init : DependencyTracker :=
  { tasks := [], blockers := [], project_days := 112 }

/-- One iteration of the `for dep_id in task.dependencies` loop of
`add_task`: if the dependency is present, append the new task's id to its
`blocks` list. -/
def addTaskFoldStep (task_id : Nat) (ts : List (Nat × Task)) (dep_id : Nat) :
    List (Nat × Task) :=
  match dictLookup dep_id ts with
  | some dep =>
      dictInsert dep_id ({ dep with blocks := dep.blocks ++ [task_id] }) ts
  | none => ts

/-- `add_task`: builds the new `Task` record, stores it, then appends the new
id to the `blocks` list of every listed dependency that is present in the
store (the membership test runs against the store that already contains the
new task, as in the source, where `self.tasks[task_id] = task` precedes the
loop). The generated `uuid4` is the `task_id` argument. Returns the new id
and the new state; the source never fails here (no validation). -/
def add_task (s : DependencyTracker) (task_id : Nat) (name agent : String)
    (estimated_days : Int) (dependencies : List Nat) (priority : Priority)
    (deliverables success_criteria : List String) :
    Nat × DependencyTracker :=
  let task : Task :=
    { id := task_id, name := name, agent := agent,
      status := TaskStatus.not_started, priority := priority,
      estimated_days := estimated_days, actual_days := 0,
      start_date := none, end_date := none,
      dependencies := dependencies, blocks := [],
      deliverables := deliverables, success_criteria := success_criteria,
      completion_percentage := 0, notes := "" }
  let tasks1 := dictInsert task_id task s.tasks
  let tasks2 := dependencies.foldl (addTaskFoldStep task_id) tasks1
  (task_id, { s with tasks := tasks2 })

/-- `update_task_status`: no transition is ever rejected besides the
`ValueError` on an unknown id; in particular a COMPLETED task accepts any
new status. `completion_percentage = None` and `notes = None` defaults are
`Option` arguments; `if notes:` is Python truthiness ("" is falsy). -/
def update_task_status (s : DependencyTracker) (now : Nat) (task_id : Nat)
    (status : TaskStatus) (completion_percentage : Option Rat)
    (notes : Option String) : Option PyError × DependencyTracker :=
  match dictLookup task_id s.tasks with
  | none =>
      (some (PyError.valueError ("Task " ++ toString task_id ++ " not found")), s)
  | some task =>
      let old_status := task.status
      let task1 := { task with status := status }
      let task2 :=
        match completion_percentage with
        | some cp => { task1 with completion_percentage := cp }
        | none => task1
      let task3 :=
        match notes with
        | some n => if n = "" then task2 else { task2 with notes := n }
        | none => task2
      let task4 :=
        if old_status = TaskStatus.not_started ∧ status = TaskStatus.in_progress then
          { task3 with start_date := some now }
        else if status = TaskStatus.completed then
          let t := { task3 with end_date := some now, completion_percentage := 100 }
          match t.start_date with
          | some sd => { t with actual_days := (now : Int) - (sd : Int) }
          | none => t
        else task3
      (none, { s with tasks := dictInsert task_id task4 s.tasks })

/-- `add_blocker`: `ValueError` on an unknown task id; otherwise stores the
new blocker and forces the task to BLOCKED unless it is COMPLETED. The
generated `uuid4` is the `blocker_id` argument. -/
def add_blocker (s : DependencyTracker) (now : Nat) (blocker_id : Nat)
    (task_id : Nat) (blocker_type : BlockerType)
    (description impact : String) (assigned_to : Option String) :
    Option PyError × Nat × DependencyTracker :=
  match dictLookup task_id s.tasks with
  | none =>
      (some (PyError.valueError ("Task " ++ toString task_id ++ " not found")),
        blocker_id, s)
  | some task =>
      let blocker : Blocker :=
        { id := blocker_id, task_id := task_id, blocker_type := blocker_type,
          description := description, impact := impact,
          reported_date := now, resolved_date := none,
          assigned_to := assigned_to.getD "", resolution_notes := "",
          escalated := false }
      let s1 := { s with blockers := dictInsert blocker_id blocker s.blockers }
      let s2 :=
        if task.status ≠ TaskStatus.completed then
          let t2 : Task := { task with status := TaskStatus.blocked }
          { s1 with tasks := dictInsert task_id t2 s1.tasks }
        else s1
      (none, blocker_id, s2)

/-- `resolve_blocker`: `ValueError` on an unknown blocker id. There is no
already-resolved check: `resolved_date` and `resolution_notes` are simply
overwritten. Afterwards, if the task has no remaining open blocker and its
status is BLOCKED, it reverts to NOT_STARTED. The task lookup
`self.tasks[blocker.task_id]` raises `KeyError` when the task is missing;
by then the blocker has already been mutated, so the error carries the
partially-updated state. -/
def resolve_blocker (s : DependencyTracker) (now : Nat) (blocker_id : Nat)
    (resolution_notes : String) : Option PyError × DependencyTracker :=
  match dictLookup blocker_id s.blockers with
  | none =>
      (some (PyError.valueError ("Blocker " ++ toString blocker_id ++ " not found")), s)
  | some blocker0 =>
      let blocker : Blocker :=
        { blocker0 with resolved_date := some now, resolution_notes := resolution_notes }
      let s1 := { s with blockers := dictInsert blocker_id blocker s.blockers }
      match dictLookup blocker.task_id s1.tasks with
      | none => (some (PyError.keyError (toString blocker.task_id)), s1)
      | some task =>
          let active_blockers := s1.blockers.filter
            (fun q => q.2.task_id = task.id ∧ q.2.resolved_date = none)
          if active_blockers.isEmpty ∧ task.status = TaskStatus.blocked then
            let t2 : Task := { task with status := TaskStatus.not_started }
            (none, { s1 with tasks := dictInsert blocker.task_id t2 s1.tasks })
          else (none, s1)

/-- `escalate_blocker`: `ValueError` on an unknown id, otherwise sets
`escalated = True`. -/
def escalate_blocker (s : DependencyTracker) (blocker_id : Nat) :
    Option PyError × DependencyTracker :=
  match dictLookup blocker_id s.blockers with
  | none =>
      (some (PyError.valueError ("Blocker " ++ toString blocker_id ++ " not found")), s)
  | some blocker =>
      let b2 : Blocker := { blocker with escalated := true }
      (none, { s with blockers := dictInsert blocker_id b2 s.blockers })

/-- The `priority_order` dict used by `get_ready_tasks`. -/
def priority_order : Priority → Nat
  | Priority.critical => 0
  | Priority.high => 1
  | Priority.medium => 2
  | Priority.low => 3

/-- The sort key of `get_ready_tasks`:
`(priority_order[task.priority], task.estimated_days)`. Ready ids always
name tasks of the store, so the `none` branch is unreachable. -/
def ready_key (s : DependencyTracker) (task_id : Nat) : Nat × Int :=
  match dictLookup task_id s.tasks with
  | some t => (priority_order t.priority, t.estimated_days)
  | none => (0, 0)

/-- Comparison of the lexicographic sort keys (Python tuple comparison). -/
def ready_le (s : DependencyTracker) (a b : Nat) : Bool :=
  let ka := ready_key s a
  let kb := ready_key s b
  decide (ka.1 < kb.1 ∨ (ka.1 = kb.1 ∧ ka.2 ≤ kb.2))

/-- Stable insertion into a sorted list: the inserted element, which came
earlier in the unsorted input, goes before later elements with an equal key,
matching the stability of Python's `list.sort`. -/
def insertSorted (le : Nat → Nat → Bool) (a : Nat) : List Nat → List Nat
  | [] => [a]
  | b :: l => if le a b then a :: b :: l else b :: insertSorted le a l

/-- Stable insertion sort (Python's `list.sort` is a stable sort; only the
ordering and permutation properties matter to the spec). -/
def sortByLe (le : Nat → Nat → Bool) : List Nat → List Nat
  | [] => []
  | a :: l => insertSorted le a (sortByLe le l)

/-- The readiness test of `get_ready_tasks`: status NOT_STARTED, every
dependency that exists in the store COMPLETED, and no open blocker whose
`task_id` is this task's key. -/
def taskIsReady (s : DependencyTracker) (task_id : Nat) (task : Task) : Bool :=
  (task.status = TaskStatus.not_started : Bool) &&
  task.dependencies.all (fun dep_id =>
    match dictLookup dep_id s.tasks with
    | some dep => dep.status = TaskStatus.completed
    | none => true) &&
  (s.blockers.filter
    (fun q => q.2.task_id = task_id ∧ q.2.resolved_date = none)).isEmpty

/-- `get_ready_tasks`: filter in store (insertion) order, then sort by
`(priority_order, estimated_days)`. -/
def get_ready_tasks (s : DependencyTracker) : List Nat :=
  let ready_tasks := (s.tasks.filter (fun p => taskIsReady s p.1 p.2)).map Prod.fst
  sortByLe (ready_le s) ready_tasks

/-- `get_overdue_tasks`: IN_PROGRESS or BLOCKED, `start_date` set, and
`(now - start_date).days > estimated_days`. -/
def get_overdue_tasks (s : DependencyTracker) (now : Nat) : List Nat :=
  (s.tasks.filter (fun p =>
    (p.2.status = TaskStatus.in_progress ∨ p.2.status = TaskStatus.blocked) ∧
    p.2.start_date.isSome ∧
    (now : Int) - ((p.2.start_date.getD 0 : Nat) : Int) > p.2.estimated_days)).map
    Prod.fst

/-- One agent's entry of the `get_agent_workload` result dict. The Python
dict literal has exactly the keys `not_started`, `in_progress`, `blocked`,
`completed`, `total_days`, `remaining_days`. -/
structure AgentLoad where
  not_started : Nat
  in_progress : Nat
  blocked : Nat
  completed : Nat
  total_days : Int
  remaining_days : Rat
deriving Repr, DecidableEq

/-- The zero-initialised per-agent dict literal. -/
def AgentLoad.initLoad : AgentLoad :=
  { not_started := 0, in_progress := 0, blocked := 0, completed := 0,
    total_days := 0, remaining_days := 0 }

/-- `workload[task.agent][task.status.value] += 1`. The per-agent dict has
no `"on_hold"` key, so an ON_HOLD task raises `KeyError` in the source;
that is the `none` case here. -/
def statusBump (w : AgentLoad) : TaskStatus → Option AgentLoad
  | TaskStatus.not_started => some { w with not_started := w.not_started + 1 }
  | TaskStatus.in_progress => some { w with in_progress := w.in_progress + 1 }
  | TaskStatus.blocked => some { w with blocked := w.blocked + 1 }
  | TaskStatus.completed => some { w with completed := w.completed + 1 }
  | TaskStatus.on_hold => none

/-- One iteration of the `for task in self.tasks.values()` loop of
`get_agent_workload` acting on the accumulating per-agent dict (the
`workload[task.agent] = {...}` default-initialisation is the `getD`). -/
def workloadStep (w : List (String × AgentLoad)) (p : Nat × Task) :
    Option (List (String × AgentLoad)) :=
  let task := p.2
  let cur := (dictLookup task.agent w).getD AgentLoad.initLoad
  match statusBump cur task.status with
  | none => none
  | some cur1 =>
      let cur2 := { cur1 with total_days := cur1.total_days + task.estimated_days }
      let cur3 :=
        if task.status = TaskStatus.not_started ∨
            task.status = TaskStatus.in_progress ∨
            task.status = TaskStatus.blocked then
          { cur2 with remaining_days := cur2.remaining_days +
              (task.estimated_days : Rat) * (1 - task.completion_percentage / 100) }
        else cur2
      some (dictInsert task.agent cur3 w)

/-- `get_agent_workload`: per-agent status counts, total estimated days and
remaining days. `none` models the `KeyError` raised on the first ON_HOLD
task encountered. -/
def get_agent_workload (s : DependencyTracker) :
    Option (List (String × AgentLoad)) :=
  s.tasks.foldlM workloadStep []

/-- The key list of a task store. -/
def keysOf (T : List (Nat × Task)) : List Nat := T.map Prod.fst

/-- The dependency list of a key (empty for a missing key). -/
def depsOf (T : List (Nat × Task)) (k : Nat) : List Nat :=
  match dictLookup k T with
  | some t => t.dependencies
  | none => []

/-- `graph[current]`: the blocks list of a key. The `none` branch stands
for the `KeyError` Python would raise on a missing key (unreachable when
the key is in the store). -/
def blocksOf (T : List (Nat × Task)) (k : Nat) : List Nat :=
  match dictLookup k T with
  | some t => t.blocks
  | none => []

/-- `self.tasks[k].estimated_days` (0 for a missing key, standing for the
unreachable `KeyError`). -/
def estOf (T : List (Nat × Task)) (k : Nat) : Int :=
  match dictLookup k T with
  | some t => t.estimated_days
  | none => 0

/-- The mutable local state of the Kahn loop inside
`calculate_critical_path`: `queue`, `in_degree`, `distances`,
`predecessors`. -/
structure KahnSt where
  queue : List Nat
  indeg : List (Nat × Int)
  dist : List (Nat × Int)
  pred : List (Nat × Option Nat)
deriving Repr, DecidableEq

/-- The body of `for neighbor in graph[current]`: relax
`distances[neighbor]` against `distances[current] + estimated_days[current]`
(recording the predecessor on strict improvement), decrement
`in_degree[neighbor]`, and enqueue the neighbor when it reaches zero.
The `getD` defaults stand for lookups that would raise `KeyError` in
Python; they are unreachable when every `blocks` entry names a stored task. -/
def processNeighbor (tasks : List (Nat × Task)) (current : Nat)
    (st : KahnSt) (neighbor : Nat) : KahnSt :=
  let cest : Int := estOf tasks current
  let new_distance := (dictLookup current st.dist).getD 0 + cest
  let st1 :=
    if new_distance > (dictLookup neighbor st.dist).getD 0 then
      { st with dist := dictInsert neighbor new_distance st.dist,
                pred := dictInsert neighbor (some current) st.pred }
    else st
  let nin := (dictLookup neighbor st1.indeg).getD 0 - 1
  let st2 := { st1 with indeg := dictInsert neighbor nin st1.indeg }
  if nin = 0 then { st2 with queue := st2.queue ++ [neighbor] } else st2

/-- The `while queue:` loop. Each store key is enqueued at most once (its
in-degree is only ever decremented, so it passes zero at most once), so a
fuel of `tasks.length` always suffices for the loop to drain the queue. -/
def kahnLoop (tasks : List (Nat × Task)) : Nat → KahnSt → KahnSt
  | 0, st => st
  | fuel + 1, st =>
      match st.queue with
      | [] => st
      | current :: rest =>
          let nbrs := blocksOf tasks current
          let st1 := nbrs.foldl (processNeighbor tasks current) { st with queue := rest }
          kahnLoop tasks fuel st1

/-- `max(distances.keys(), key=lambda x: distances[x])`: first key attaining
the maximal value (Python's `max` keeps the first maximum), `none` on an
empty dict (where Python raises `ValueError`). -/
def maxByValGo (k : Nat) (v : Int) : List (Nat × Int) → Nat
  | [] => k
  | (k1, v1) :: rest =>
      if v1 > v then maxByValGo k1 v1 rest else maxByValGo k v rest

/-- See `maxByValGo`. -/
def maxByVal : List (Nat × Int) → Option Nat
  | [] => none
  | (k, v) :: rest => some (maxByValGo k v rest)

/-- The `while current is not None:` predecessor walk (before the final
`reverse`). Predecessor chains strictly follow the pop order of the loop,
so they visit distinct store keys and a fuel of `tasks.length` suffices;
a missing-key lookup (Python `KeyError`, unreachable on store keys) ends
the walk. -/
def reconstruct (pred : List (Nat × Option Nat)) : Nat → Nat → List Nat
  | 0, _ => []
  | fuel + 1, current =>
      current ::
        (match dictLookup current pred with
         | some (some p) => reconstruct pred fuel p
         | _ => [])

/-- The local-variable initialisation of `calculate_critical_path`:
`in_degree` (dict comprehension over the task dicts), the seed `queue` of
in-degree-0 tasks, `distances` and `predecessors` dicts. -/
def kahnInit (s : DependencyTracker) : KahnSt :=
  let in_degree : List (Nat × Int) :=
    s.tasks.foldl (fun d p => dictInsert p.1 ((p.2.dependencies.length : Int)) d) []
  let queue := (in_degree.filter (fun p => p.2 = 0)).map Prod.fst
  let distances : List (Nat × Int) :=
    s.tasks.foldl (fun d p => dictInsert p.1 (0 : Int) d) []
  let preds : List (Nat × Option Nat) :=
    s.tasks.foldl (fun d p => dictInsert p.1 (none : Option Nat) d) []
  { queue := queue, indeg := in_degree, dist := distances, pred := preds }

/-- The state of the local variables after the `while queue:` loop. -/
def kahnFinal (s : DependencyTracker) : KahnSt :=
  kahnLoop s.tasks s.tasks.length (kahnInit s)

/-- `calculate_critical_path`. `none` models the `ValueError` that
`max(distances.keys(), ...)` raises on an empty task store. -/
def calculate_critical_path (s : DependencyTracker) : Option CriticalPath :=
  let st := kahnFinal s
  match maxByVal st.dist with
  | none => none
  | some end_task =>
      let end_est : Int := estOf s.tasks end_task
      let total_duration := (dictLookup end_task st.dist).getD 0 + end_est
      let path := (reconstruct st.pred s.tasks.length end_task).reverse
      let total_float := s.project_days - total_duration
      let bottlenecks := path.filter (fun tid =>
        match dictLookup tid s.tasks with
        | some t => t.priority = Priority.critical ∨ t.blocks.length > 2
        | none => false)
      let risk_level :=
        if total_float < 0 then "HIGH - Project behind schedule"
        else if total_float < 7 then "MEDIUM - Limited schedule buffer"
        else "LOW - Adequate schedule buffer"
      some { path := path, total_duration := total_duration,
             total_float := total_float, risk_level := risk_level,
             bottlenecks := bottlenecks }

/-- The health-score block of `get_project_health` (start at 100, capped
penalties, float penalty, floor at 0). -/
def health_score_calc (blocked_tasks overdue_tasks escalated_blockers : Nat)
    (total_float : Int) : Int :=
  let h1 : Int := 100 - min 30 (5 * (blocked_tasks : Int))
  let h2 : Int := h1 - min 20 (3 * (overdue_tasks : Int))
  let h3 : Int := h2 - min 25 (10 * (escalated_blockers : Int))
  let h4 : Int :=
    if total_float < 0 then h3 - 20
    else if total_float < 7 then h3 - 10
    else h3
  max 0 h4

/-- The dict returned by `get_project_health` (`report_date`-free fields;
`progress_percentage` is kept exact instead of rounded to one decimal,
`health_score` is an integer so its `round(_, 1)` is the identity). -/
structure ProjectHealth where
  total_tasks : Nat
  completed_tasks : Nat
  blocked_tasks : Nat
  overdue_tasks : Nat
  active_blockers : Nat
  escalated_blockers : Nat
  progress_percentage : Rat
  schedule_float_days : Int
  risk_level : String
  health_score : Int
deriving Repr, DecidableEq

/-- `get_project_health`. `none` models the `ValueError` propagated from
`calculate_critical_path` on an empty store. -/
def get_project_health (s : DependencyTracker) (now : Nat) :
    Option ProjectHealth :=
  let total_tasks := s.tasks.length
  let completed_tasks :=
    s.tasks.countP (fun p => p.2.status = TaskStatus.completed)
  let blocked_tasks :=
    s.tasks.countP (fun p => p.2.status = TaskStatus.blocked)
  let overdue_tasks := (get_overdue_tasks s now).length
  let active_blockers :=
    s.blockers.countP (fun q => q.2.resolved_date = none)
  let escalated_blockers :=
    s.blockers.countP (fun q => q.2.escalated ∧ q.2.resolved_date = none)
  match calculate_critical_path s with
  | none => none
  | some critical_path =>
      let total_estimated_days : Int :=
        (s.tasks.map (fun p => p.2.estimated_days)).sum
      let completed_days : Int :=
        ((s.tasks.filter (fun p => p.2.status = TaskStatus.completed)).map
          (fun p => p.2.estimated_days)).sum
      let progress_percentage : Rat :=
        if total_estimated_days > 0 then
          (completed_days : Rat) / (total_estimated_days : Rat) * 100
        else 0
      some { total_tasks := total_tasks, completed_tasks := completed_tasks,
             blocked_tasks := blocked_tasks, overdue_tasks := overdue_tasks,
             active_blockers := active_blockers,
             escalated_blockers := escalated_blockers,
             progress_percentage := progress_percentage,
             schedule_float_days := critical_path.total_float,
             risk_level := critical_path.risk_level,
             health_score := health_score_calc blocked_tasks overdue_tasks
               escalated_blockers critical_path.total_float }

end DependencyTracker

/-! ### Spec-side predicates (used to state the claims) -/

open DependencyTracker

/-- A dependency-respecting path through the task graph: nonempty, every
entry names a stored task, and each task depends on its predecessor in the
path (finish-to-start edges, earliest first). -/
def validPathB (s : DependencyTracker) : List Nat → Bool
  | [] => false
  | [v] => (dictLookup v s.tasks).isSome
  | v :: w :: rest =>
      (dictLookup v s.tasks).isSome &&
      (match dictLookup w s.tasks with
       | some tw => v ∈ tw.dependencies
       | none => false) &&
      validPathB s (w :: rest)

/-- Sum of `estimated_days` along a list of task ids. -/
def pathSum (s : DependencyTracker) (p : List Nat) : Int :=
  (p.map (fun tid =>
    match dictLookup tid s.tasks with
    | some t => t.estimated_days
    | none => 0)).sum

/-- The `blocks`/`dependencies` inverse-adjacency invariant of the spec:
for all stored tasks A, B: B ∈ A.dependencies ⇔ A ∈ B.blocks. -/
def BlocksInvariant (s : DependencyTracker) : Prop :=
  ∀ p ∈ s.tasks, ∀ q ∈ s.tasks,
    (q.1 ∈ p.2.dependencies ↔ p.1 ∈ q.2.blocks)

/-- Spec-side sum over a task list (§4.5 of the spec, restricted to the
statuses the code actually includes): total remaining effort of an agent,
summed over the agent's tasks with status NOT_STARTED, IN_PROGRESS or
BLOCKED, as `estimatedDays × (1 − completionPercentage/100)`. -/
def remainingSpecL (l : List (Nat × Task)) (ag : String) : Rat :=
  ((l.filter (fun p => p.2.agent = ag ∧
      (p.2.status = TaskStatus.not_started ∨
       p.2.status = TaskStatus.in_progress ∨
       p.2.status = TaskStatus.blocked))).map
    (fun p => (p.2.estimated_days : Rat) * (1 - p.2.completion_percentage / 100))).sum

/-- `remainingSpecL` over a store's task list. -/
def remainingSpec (s : DependencyTracker) (ag : String) : Rat :=
  remainingSpecL s.tasks ag

/-- The remaining-days contribution of a single task to an agent's total. -/
def taskContribution (p : Nat × Task) (ag : String) : Rat :=
  if p.2.agent = ag ∧
      (p.2.status = TaskStatus.not_started ∨
       p.2.status = TaskStatus.in_progress ∨
       p.2.status = TaskStatus.blocked) then
    (p.2.estimated_days : Rat) * (1 - p.2.completion_percentage / 100)
  else 0

/-- The `remaining_days` value `get_agent_workload` reports for an agent
(0 when the agent is absent from the result dict). -/
def agentRemaining (w : List (String × AgentLoad)) (ag : String) : Rat :=
  ((dictLookup ag w).getD AgentLoad.initLoad).remaining_days

/-! ### Dictionary lemmas -/

theorem dictLookup_insert_self {κ α : Type} [DecidableEq κ] (k : κ) (v : α)
    (d : List (κ × α)) :
    dictLookup k (dictInsert k v d) = some v := by
  induction d with
  | nil => simp [dictInsert, dictLookup]
  | cons p rest ih =>
      by_cases h : p.1 = k
      · simp [dictInsert, dictLookup, h]
      · simp [dictInsert, dictLookup, h, ih]

theorem dictLookup_insert_ne {κ α : Type} [DecidableEq κ] (k k' : κ) (v : α)
    (d : List (κ × α)) (h : k' ≠ k) :
    dictLookup k' (dictInsert k v d) = dictLookup k' d := by
  induction d with
  | nil => simp [dictInsert, dictLookup, Ne.symm h]
  | cons p rest ih =>
      by_cases hp : p.1 = k
      · subst hp
        simp [dictInsert, dictLookup, Ne.symm h]
      · by_cases hp' : p.1 = k'
        · subst hp'
          simp [dictInsert, dictLookup, hp, h]
        · simp [dictInsert, dictLookup, hp, Ne.symm hp', ih]

theorem dictInsert_keys_of_lookup {α : Type} (k : Nat) (v : α) (d : List (Nat × α))
    (h : (dictLookup k d).isSome) :
    (dictInsert k v d).map Prod.fst = d.map Prod.fst := by
  induction d with
  | nil => simp [dictLookup] at h
  | cons p rest ih =>
      by_cases hp : p.1 = k
      · simp [dictInsert, hp]
      · simp [dictLookup, hp] at h
        simp [dictInsert, hp, ih h]

theorem dictInsert_keys_of_fresh {α : Type} (k : Nat) (v : α) (d : List (Nat × α))
    (h : dictLookup k d = none) :
    (dictInsert k v d).map Prod.fst = d.map Prod.fst ++ [k] := by
  induction d with
  | nil => simp [dictInsert]
  | cons p rest ih =>
      by_cases hp : p.1 = k
      · simp [dictLookup, hp] at h
      · simp [dictLookup, hp] at h
        simp [dictInsert, hp, ih h]

theorem dictLookup_isSome_iff_mem_keys {α : Type} (k : Nat) (d : List (Nat × α)) :
    (dictLookup k d).isSome ↔ k ∈ d.map Prod.fst := by
  induction d with
  | nil => simp [dictLookup]
  | cons p rest ih =>
      by_cases hp : p.1 = k
      · simp [dictLookup, hp]
      · simp [dictLookup, hp, ih, Ne.symm hp]

theorem dictLookup_eq_none_iff_not_mem {α : Type} (k : Nat) (d : List (Nat × α)) :
    dictLookup k d = none ↔ k ∉ d.map Prod.fst := by
  rw [← dictLookup_isSome_iff_mem_keys]
  cases dictLookup k d <;> simp

theorem mem_dictInsert_of_ne {α : Type} {k : Nat} {v : α} {d : List (Nat × α)}
    {p : Nat × α} (hp : p ∈ d) (hne : p.1 ≠ k) : p ∈ dictInsert k v d := by
  induction d with
  | nil => cases hp
  | cons q rest ih =>
      by_cases hq : q.1 = k
      · rcases List.mem_cons.mp hp with h | h
        · exact absurd (by rw [h]; exact hq) hne
        · simp [dictInsert, hq, h]
      · rcases List.mem_cons.mp hp with h | h
        · simp [dictInsert, hq, h]
        · simp only [dictInsert, if_neg hq]
          exact List.mem_cons_of_mem _ (ih h)

theorem mem_dictInsert_elim {α : Type} {k : Nat} {v : α} {d : List (Nat × α)}
    (hnd : (d.map Prod.fst).Nodup) {p : Nat × α} (hp : p ∈ dictInsert k v d) :
    p = (k, v) ∨ (p ∈ d ∧ p.1 ≠ k) := by
  induction d with
  | nil => simp [dictInsert] at hp; simp [hp]
  | cons q rest ih =>
      simp only [List.map_cons, List.nodup_cons] at hnd
      by_cases hq : q.1 = k
      · subst hq
        simp only [dictInsert, if_pos rfl] at hp
        rcases List.mem_cons.mp hp with h | h
        · exact Or.inl h
        · right
          refine ⟨List.mem_cons_of_mem _ h, ?_⟩
          intro hk
          exact hnd.1 (hk ▸ List.mem_map_of_mem Prod.fst h)
      · simp only [dictInsert, if_neg hq] at hp
        rcases List.mem_cons.mp hp with h | h
        · exact Or.inr ⟨by rw [h]; exact List.mem_cons_self _ _, by rw [h]; exact hq⟩
        · rcases ih hnd.2 h with h1 | h1
          · exact Or.inl h1
          · exact Or.inr ⟨List.mem_cons_of_mem _ h1.1, h1.2⟩

/-! ### Lemmas about the `add_task` blocks-update loop -/

theorem addTaskFoldStep_lookup_isSome (task_id d x : Nat) (ts : List (Nat × Task))
    (h : (dictLookup x ts).isSome) :
    (dictLookup x (addTaskFoldStep task_id ts d)).isSome := by
  unfold addTaskFoldStep
  cases hd : dictLookup d ts with
  | none => exact h
  | some td =>
      by_cases hx : x = d
      · subst hx; rw [dictLookup_insert_self]; rfl
      · rw [dictLookup_insert_ne _ _ _ _ hx]; exact h

theorem addTaskFold_lookup (task_id : Nat) (deps : List Nat) :
    ∀ (ts : List (Nat × Task)), (∀ d ∈ deps, (dictLookup d ts).isSome) →
    ∀ k, dictLookup k (deps.foldl (addTaskFoldStep task_id) ts) =
      (dictLookup k ts).map
        (fun t => { t with
          blocks := t.blocks ++ List.replicate (deps.count k) task_id }) := by
  induction deps with
  | nil =>
      intro ts _ k
      simp only [List.foldl_nil, List.count_nil, List.replicate_zero, List.append_nil]
      cases h : dictLookup k ts with
      | none => rfl
      | some t => rfl
  | cons d rest ih =>
      intro ts hdeps k
      have hd : (dictLookup d ts).isSome := hdeps d (List.mem_cons_self _ _)
      rcases Option.isSome_iff_exists.mp hd with ⟨td, htd⟩
      have hstep : addTaskFoldStep task_id ts d =
          dictInsert d ({ td with blocks := td.blocks ++ [task_id] }) ts := by
        unfold addTaskFoldStep; rw [htd]
      have hrest : ∀ x ∈ rest, (dictLookup x (addTaskFoldStep task_id ts d)).isSome := by
        intro x hx
        exact addTaskFoldStep_lookup_isSome task_id d x ts (hdeps x (List.mem_cons_of_mem _ hx))
      have := ih (addTaskFoldStep task_id ts d) hrest k
      rw [List.foldl_cons, this]
      by_cases hk : k = d
      · subst hk
        rw [hstep, dictLookup_insert_self, htd]
        simp only [Option.map_some']
        congr 1
        have hc : List.count k (k :: rest) = List.count k rest + 1 := by
          simp [List.count_cons]
        simp [hc, List.append_assoc, List.replicate_succ]
      · rw [hstep, dictLookup_insert_ne _ _ _ _ hk]
        congr 2
        simp [List.count_cons, hk]

theorem addTaskFold_keys (task_id : Nat) (deps : List Nat) :
    ∀ (ts : List (Nat × Task)),
    (deps.foldl (addTaskFoldStep task_id) ts).map Prod.fst = ts.map Prod.fst := by
  induction deps with
  | nil => intro ts; rfl
  | cons d rest ih =>
      intro ts
      rw [List.foldl_cons, ih]
      unfold addTaskFoldStep
      cases hd : dictLookup d ts with
      | none => rfl
      | some td => exact dictInsert_keys_of_lookup d _ ts (by rw [hd]; rfl)

/-- Field view of a task that ignores `blocks` (the only field the
dependency-patching loop of `add_task` modifies). -/
def taskCore (t : Task) : TaskStatus × Int × List Nat × String × String :=
  (t.status, t.estimated_days, t.dependencies, t.name, t.agent)

theorem addTaskFold_lookup_core (task_id : Nat) (deps : List Nat) :
    ∀ (ts : List (Nat × Task)) (k : Nat),
    (dictLookup k (deps.foldl (addTaskFoldStep task_id) ts)).map taskCore
      = (dictLookup k ts).map taskCore := by
  induction deps with
  | nil => intro ts k; rfl
  | cons d rest ih =>
      intro ts k
      rw [List.foldl_cons, ih]
      unfold addTaskFoldStep
      cases hd : dictLookup d ts with
      | none => rfl
      | some td =>
          by_cases hk : k = d
          · subst hk
            rw [dictLookup_insert_self, hd]
            rfl
          · rw [dictLookup_insert_ne _ _ _ _ hk]

/-- The `update_task_status` success path: never an error, and the stored
record's final status is exactly the requested one (no branch of the source
changes `status` after the initial assignment). -/
theorem update_status_fields (s : DependencyTracker) (now task_id : Nat)
    (st : TaskStatus) (cp : Option Rat) (nts : Option String) (t : Task)
    (hl : dictLookup task_id s.tasks = some t) :
    (update_task_status s now task_id st cp nts).1 = none ∧
    ∃ tk, (update_task_status s now task_id st cp nts).2.tasks
        = dictInsert task_id tk s.tasks ∧ tk.status = st := by
  unfold update_task_status
  rw [hl]
  constructor
  · rfl
  refine ⟨_, rfl, ?_⟩
  cases cp <;> cases nts <;>
    simp only [] <;>
    split_ifs <;>
    (try rfl) <;>
    (rcases hsd : t.start_date with - | sd <;> simp [hsd])

/-! ### C4: UPDATE ON COMPLETED TASKS -/

/-- Fixture for C4: a task created, moved to COMPLETED. -/
def storeC4 : DependencyTracker :=
  (update_task_status
    ((DependencyTracker.add_task DependencyTracker.init 1 "t" "a" 3 []
        Priority.medium [] []).2)
    5 1 TaskStatus.completed none none).2

/-- C4 counterexample: a COMPLETED task accepts `UpdateStatus` to
IN_PROGRESS — the call does not fail and the status leaves COMPLETED, so
COMPLETED is not terminal in the code. -/
theorem C4_counterexample :
    ((dictLookup 1 storeC4.tasks).map Task.status = some TaskStatus.completed) ∧
    (update_task_status storeC4 6 1 TaskStatus.in_progress none none).1 = none ∧
    ((dictLookup 1
        (update_task_status storeC4 6 1 TaskStatus.in_progress none none).2.tasks).map
      Task.status = some TaskStatus.in_progress) := by
  decide

/-- C4 (amended): `update_task_status` on a COMPLETED task does not fail
and simply applies the requested status — the code has no terminal-state
check (the spec itself flags this as a strictness the naive update path
lacks). -/
theorem update_status_on_completed_applies (s : DependencyTracker)
    (now task_id : Nat) (st : TaskStatus) (cp : Option Rat)
    (nts : Option String) (t : Task)
    (hl : dictLookup task_id s.tasks = some t)
    (_hc : t.status = TaskStatus.completed) :
    (update_task_status s now task_id st cp nts).1 = none ∧
    (dictLookup task_id (update_task_status s now task_id st cp nts).2.tasks).map
      Task.status = some st := by
  obtain ⟨h1, tk, h2, h3⟩ := update_status_fields s now task_id st cp nts t hl
  refine ⟨h1, ?_⟩
  rw [h2, dictLookup_insert_self, Option.map_some', h3]

/-- The task record stored in `storeC4`. -/
def taskC4 : Task :=
  { id := 1, name := "t", agent := "a", status := TaskStatus.completed,
    priority := Priority.medium, estimated_days := 3, actual_days := 0,
    start_date := none, end_date := some 5, dependencies := [], blocks := [],
    deliverables := [], success_criteria := [], completion_percentage := 100,
    notes := "" }

/-- C4 witness. -/
theorem C4_witness :
    (update_task_status storeC4 6 1 TaskStatus.on_hold none none).1 = none ∧
    (dictLookup 1
        (update_task_status storeC4 6 1 TaskStatus.on_hold none none).2.tasks).map
      Task.status = some TaskStatus.on_hold :=
  update_status_on_completed_applies storeC4 6 1 TaskStatus.on_hold none none
    taskC4 (by decide) (by decide)

/-! ### C5: NO VALIDATION OF `estimated_days` IN `add_task` -/

/-- C5 counterexample: `add_task` with `estimated_days = 0` succeeds and
adds the task (the source has no `InvalidArgument` path at all). -/
theorem C5_counterexample :
    (DependencyTracker.add_task DependencyTracker.init 1 "t" "a" 0 []
      Priority.medium [] []).1 = 1 ∧
    (DependencyTracker.add_task DependencyTracker.init 1 "t" "a" 0 []
      Priority.medium [] []).2.tasks.length = 1 ∧
    ((dictLookup 1 (DependencyTracker.add_task DependencyTracker.init 1 "t" "a" 0 []
      Priority.medium [] []).2.tasks).map Task.estimated_days = some 0) := by
  decide

/-- C5 (amended): `add_task` performs no validation: for every
`estimated_days` (zero and negative included) the call succeeds, stores a
new NOT_STARTED task under the fresh generated id, and returns that id;
the store grows by exactly one entry. -/
theorem add_task_always_adds (s : DependencyTracker) (task_id : Nat)
    (nm ag : String) (est : Int) (deps : List Nat) (prio : Priority)
    (dv sc : List String)
    (hfresh : dictLookup task_id s.tasks = none) :
    (add_task s task_id nm ag est deps prio dv sc).1 = task_id ∧
    (add_task s task_id nm ag est deps prio dv sc).2.tasks.length
      = s.tasks.length + 1 ∧
    ∃ t, dictLookup task_id (add_task s task_id nm ag est deps prio dv sc).2.tasks
        = some t ∧ t.status = TaskStatus.not_started ∧
      t.estimated_days = est ∧ t.dependencies = deps ∧ t.name = nm ∧ t.agent = ag := by
  refine ⟨rfl, ?_, ?_⟩
  · show (deps.foldl (addTaskFoldStep task_id) (dictInsert task_id _ s.tasks)).length
      = s.tasks.length + 1
    have h1 := addTaskFold_keys task_id deps (dictInsert task_id
      { id := task_id, name := nm, agent := ag, status := TaskStatus.not_started,
        priority := prio, estimated_days := est, actual_days := 0,
        start_date := none, end_date := none, dependencies := deps, blocks := [],
        deliverables := dv, success_criteria := sc, completion_percentage := 0,
        notes := "" } s.tasks)
    have h2 := dictInsert_keys_of_fresh task_id
      { id := task_id, name := nm, agent := ag, status := TaskStatus.not_started,
        priority := prio, estimated_days := est, actual_days := 0,
        start_date := none, end_date := none, dependencies := deps, blocks := [],
        deliverables := dv, success_criteria := sc, completion_percentage := 0,
        notes := "" } s.tasks hfresh
    have := congrArg List.length (h1.trans h2)
    simpa using this
  · have hcore := addTaskFold_lookup_core task_id deps (dictInsert task_id
      { id := task_id, name := nm, agent := ag, status := TaskStatus.not_started,
        priority := prio, estimated_days := est, actual_days := 0,
        start_date := none, end_date := none, dependencies := deps, blocks := [],
        deliverables := dv, success_criteria := sc, completion_percentage := 0,
        notes := "" } s.tasks) task_id
    rw [dictLookup_insert_self] at hcore
    cases hres : dictLookup task_id
        (deps.foldl (addTaskFoldStep task_id) (dictInsert task_id
          { id := task_id, name := nm, agent := ag, status := TaskStatus.not_started,
            priority := prio, estimated_days := est, actual_days := 0,
            start_date := none, end_date := none, dependencies := deps, blocks := [],
            deliverables := dv, success_criteria := sc, completion_percentage := 0,
            notes := "" } s.tasks)) with
    | none => rw [hres] at hcore; cases hcore
    | some t =>
        rw [hres, Option.map_some'] at hcore
        simp only [taskCore, Option.map_some', Option.some.injEq, Prod.mk.injEq] at hcore
        exact ⟨t, hres, hcore.1, hcore.2.1, hcore.2.2.1, hcore.2.2.2.1, hcore.2.2.2.2⟩

/-- C5 witness. -/
theorem C5_witness :
    (DependencyTracker.add_task DependencyTracker.init 7 "w" "a" (-2) []
      Priority.low [] []).1 = 7 ∧
    (DependencyTracker.add_task DependencyTracker.init 7 "w" "a" (-2) []
      Priority.low [] []).2.tasks.length = 0 + 1 ∧
    ∃ t, dictLookup 7 (DependencyTracker.add_task DependencyTracker.init 7 "w" "a"
        (-2) [] Priority.low [] []).2.tasks
        = some t ∧ t.status = TaskStatus.not_started ∧
      t.estimated_days = -2 ∧ t.dependencies = [] ∧ t.name = "w" ∧ t.agent = "a" :=
  add_task_always_adds DependencyTracker.init 7 "w" "a" (-2) [] Priority.low [] []
    (by decide)

/-! ### C6: RESOLVING AN ALREADY-RESOLVED BLOCKER -/

/-- Fixture for C6/C3: one task with one blocker, resolved at time 5. -/
def storeC6 : DependencyTracker :=
  let s1 := (DependencyTracker.add_task DependencyTracker.init 1 "t" "a" 3 []
    Priority.medium [] []).2
  let s2 := (add_blocker s1 2 10 1 BlockerType.technical "desc" "imp" none).2.2
  (resolve_blocker s2 5 10 "first notes").2

/-- C6 counterexample: resolving an already-resolved blocker does not fail
with `AlreadyResolved` — the call succeeds and overwrites both
`resolved_date` and `resolution_notes`. -/
theorem C6_counterexample :
    ((dictLookup 10 storeC6.blockers).map Blocker.resolved_date = some (some 5)) ∧
    (resolve_blocker storeC6 9 10 "second notes").1 = none ∧
    ((dictLookup 10 (resolve_blocker storeC6 9 10 "second notes").2.blockers).map
      Blocker.resolved_date = some (some 9)) ∧
    ((dictLookup 10 (resolve_blocker storeC6 9 10 "second notes").2.blockers).map
      Blocker.resolution_notes = some "second notes") := by
  decide

/-- C6 (amended): `resolve_blocker` on an unknown blocker id fails with
`NotFound` (`ValueError`) leaving the state unchanged; but on an
already-resolved blocker it does not fail — it overwrites `resolved_date`
with the current time and `resolution_notes` with the new notes (there is
no `AlreadyResolved` check in the code). -/
theorem resolve_blocker_error_behaviour (s : DependencyTracker)
    (now blocker_id : Nat) (nts : String) :
    (∀ b t, dictLookup blocker_id s.blockers = some b →
      dictLookup b.task_id s.tasks = some t →
      (resolve_blocker s now blocker_id nts).1 = none ∧
      dictLookup blocker_id (resolve_blocker s now blocker_id nts).2.blockers
        = some { b with resolved_date := some now, resolution_notes := nts }) ∧
    (dictLookup blocker_id s.blockers = none →
      resolve_blocker s now blocker_id nts
        = (some (PyError.valueError ("Blocker " ++ toString blocker_id ++ " not found")),
           s)) := by
  constructor
  · intro b t hb ht
    unfold resolve_blocker
    rw [hb]
    simp only
    rw [ht]
    simp only
    split_ifs with hcond
    · exact ⟨rfl, by rw [dictLookup_insert_self]⟩
    · exact ⟨rfl, by rw [dictLookup_insert_self]⟩
  · intro hb
    unfold resolve_blocker
    rw [hb]

/-- The blocker record stored in `storeC6`. -/
def blockerC6 : Blocker :=
  { id := 10, task_id := 1, blocker_type := BlockerType.technical,
    description := "desc", impact := "imp", reported_date := 2,
    resolved_date := some 5, assigned_to := "", resolution_notes := "first notes",
    escalated := false }

/-- The task record stored in `storeC6`. -/
def taskC6 : Task :=
  { id := 1, name := "t", agent := "a", status := TaskStatus.not_started,
    priority := Priority.medium, estimated_days := 3, actual_days := 0,
    start_date := none, end_date := none, dependencies := [], blocks := [],
    deliverables := [], success_criteria := [], completion_percentage := 0,
    notes := "" }

/-- The blocker of `storeC6` as re-resolved at time 9. -/
def blockerC6res : Blocker :=
  { blockerC6 with resolved_date := some 9, resolution_notes := "second notes" }

/-- C6 witness. -/
theorem C6_witness :
    ((resolve_blocker storeC6 9 10 "second notes").1 = none ∧
      dictLookup 10 (resolve_blocker storeC6 9 10 "second notes").2.blockers
        = some blockerC6res) ∧
    resolve_blocker storeC6 9 99 "zz"
      = (some (PyError.valueError ("Blocker " ++ toString 99 ++ " not found")),
         storeC6) :=
  ⟨(resolve_blocker_error_behaviour storeC6 9 10 "second notes").1 blockerC6 taskC6
      (by decide) (by decide),
    (resolve_blocker_error_behaviour storeC6 9 99 "zz").2 (by decide)⟩

/-! ### C3: RESOLVING BLOCKERS UNBLOCKS EXACTLY WHEN NONE REMAIN OPEN -/

/-- The task-store outcome of a successful `resolve_blocker` call: the task
reverts to NOT_STARTED exactly when the post-update blocker store holds no
open blocker for the task and the task is BLOCKED. -/
theorem resolve_blocker_tasks_eq (s : DependencyTracker) (now blocker_id : Nat)
    (nts : String) (b : Blocker) (t : Task)
    (hb : dictLookup blocker_id s.blockers = some b)
    (ht : dictLookup b.task_id s.tasks = some t) :
    (resolve_blocker s now blocker_id nts).2.tasks =
      if ((dictInsert blocker_id
            ({ b with resolved_date := some now, resolution_notes := nts })
            s.blockers).filter
          (fun q => q.2.task_id = t.id ∧ q.2.resolved_date = none)).isEmpty
          ∧ t.status = TaskStatus.blocked
      then dictInsert b.task_id ({ t with status := TaskStatus.not_started }) s.tasks
      else s.tasks := by
  unfold resolve_blocker
  rw [hb]
  simp only
  rw [ht]
  simp only
  split_ifs with h
  · rfl
  · rfl

/-- C3: resolving a BLOCKED task's only open blocker reverts the task to
NOT_STARTED, while resolving one of two open blockers leaves it BLOCKED
(the status check re-scans the blocker store after the update). -/
theorem resolve_blocker_unblocks (s : DependencyTracker) (now blocker_id : Nat)
    (nts : String) (b : Blocker) (t : Task)
    (hb : dictLookup blocker_id s.blockers = some b)
    (_hopen : b.resolved_date = none)
    (ht : dictLookup b.task_id s.tasks = some t)
    (hid : t.id = b.task_id)
    (hstat : t.status = TaskStatus.blocked)
    (hkeys : (s.blockers.map Prod.fst).Nodup) :
    ((∀ p ∈ s.blockers, p.2.task_id = b.task_id → p.2.resolved_date = none →
        p.1 = blocker_id) →
      (dictLookup b.task_id (resolve_blocker s now blocker_id nts).2.tasks).map
        Task.status = some TaskStatus.not_started) ∧
    ((∃ p ∈ s.blockers, p.1 ≠ blocker_id ∧ p.2.task_id = b.task_id ∧
        p.2.resolved_date = none) →
      (dictLookup b.task_id (resolve_blocker s now blocker_id nts).2.tasks).map
        Task.status = some TaskStatus.blocked) := by
  rw [resolve_blocker_tasks_eq s now blocker_id nts b t hb ht]
  constructor
  · intro huniq
    have hfil : ((dictInsert blocker_id
          ({ b with resolved_date := some now, resolution_notes := nts })
          s.blockers).filter
        (fun q => q.2.task_id = t.id ∧ q.2.resolved_date = none)) = [] := by
      rw [List.filter_eq_nil_iff]
      intro q hq
      rcases mem_dictInsert_elim hkeys hq with h | ⟨hmem, hne⟩
      · rw [h]
        simp
      · simp only [decide_eq_true_eq, not_and]
        intro htid hres
        exact absurd (huniq q hmem (hid ▸ htid) hres) hne
    rw [if_pos ⟨by rw [hfil]; rfl, hstat⟩, dictLookup_insert_self]
    rfl
  · rintro ⟨p, hp, hne, htid, hres⟩
    have hpin : p ∈ (dictInsert blocker_id
        ({ b with resolved_date := some now, resolution_notes := nts })
        s.blockers).filter
        (fun q => q.2.task_id = t.id ∧ q.2.resolved_date = none) := by
      refine List.mem_filter.mpr ⟨mem_dictInsert_of_ne hp hne, ?_⟩
      simp [htid, hres, hid]
    have hcond : ¬ (((dictInsert blocker_id
        ({ b with resolved_date := some now, resolution_notes := nts })
        s.blockers).filter
        (fun q => q.2.task_id = t.id ∧ q.2.resolved_date = none)).isEmpty
        ∧ t.status = TaskStatus.blocked) := by
      intro hcc
      rcases hcc with ⟨hemp, -⟩
      cases hf : (dictInsert blocker_id
          ({ b with resolved_date := some now, resolution_notes := nts })
          s.blockers).filter
          (fun q => q.2.task_id = t.id ∧ q.2.resolved_date = none) with
      | nil => rw [hf] at hpin; cases hpin
      | cons x xs => rw [hf] at hemp; cases hemp
    rw [if_neg hcond, ht]
    rw [Option.map_some', hstat]

/-- Fixture for the C3 witness, first part: one BLOCKED task with a single
open blocker. -/
def storeC3a : DependencyTracker :=
  let s1 := (DependencyTracker.add_task DependencyTracker.init 1 "t" "a" 3 []
    Priority.medium [] []).2
  (add_blocker s1 2 10 1 BlockerType.resource "only" "imp" none).2.2

/-- Fixture for the C3 witness, second part: one BLOCKED task with two open
blockers. -/
def storeC3b : DependencyTracker :=
  (add_blocker storeC3a 3 11 1 BlockerType.technical "other" "imp" none).2.2

/-- The open blocker of `storeC3a`. -/
def blockerC3a : Blocker :=
  { id := 10, task_id := 1, blocker_type := BlockerType.resource,
    description := "only", impact := "imp", reported_date := 2,
    resolved_date := none, assigned_to := "", resolution_notes := "",
    escalated := false }

/-- The BLOCKED task of `storeC3a` and `storeC3b`. -/
def taskC3 : Task :=
  { id := 1, name := "t", agent := "a", status := TaskStatus.blocked,
    priority := Priority.medium, estimated_days := 3, actual_days := 0,
    start_date := none, end_date := none, dependencies := [], blocks := [],
    deliverables := [], success_criteria := [], completion_percentage := 0,
    notes := "" }

/-- C3 witness: both scenarios at concrete stores. -/
theorem C3_witness :
    (dictLookup 1 (resolve_blocker storeC3a 5 10 "done").2.tasks).map Task.status
      = some TaskStatus.not_started ∧
    (dictLookup 1 (resolve_blocker storeC3b 5 10 "done").2.tasks).map Task.status
      = some TaskStatus.blocked :=
  ⟨(resolve_blocker_unblocks storeC3a 5 10 "done" blockerC3a taskC3
      (by decide) (by decide) (by decide) (by decide) (by decide) (by decide)).1
      (by decide),
    (resolve_blocker_unblocks storeC3b 5 10 "done" blockerC3a taskC3
      (by decide) (by decide) (by decide) (by decide) (by decide) (by decide)).2
      (by decide)⟩

/-! ### C8: HEALTH SCORE MONOTONICITY AND RANGE -/

/-- C8: the health score follows the subtract-with-cap formula of the
source: it is monotonically non-increasing in each of the blocked, overdue
and escalated counts (the other inputs, the critical-path float included,
held fixed), and it always lies in [0, 100]. -/
theorem health_score_monotone_and_bounded :
    (∀ b b' o e f, b ≤ b' →
      health_score_calc b' o e f ≤ health_score_calc b o e f) ∧
    (∀ b o o' e f, o ≤ o' →
      health_score_calc b o' e f ≤ health_score_calc b o e f) ∧
    (∀ b o e e' f, e ≤ e' →
      health_score_calc b o e' f ≤ health_score_calc b o e f) ∧
    (∀ b o e f, 0 ≤ health_score_calc b o e f ∧ health_score_calc b o e f ≤ 100) := by
  have hcast : ∀ m n : Nat, m ≤ n → (m : Int) ≤ (n : Int) := by
    intro m n h; exact_mod_cast h
  refine ⟨?_, ?_, ?_, ?_⟩
  · intro b b' o e f h
    have hb := hcast b b' h
    unfold health_score_calc
    split_ifs <;>
      simp only [min_def] <;> split_ifs <;> omega
  · intro b o o' e f h
    have ho := hcast o o' h
    unfold health_score_calc
    split_ifs <;>
      simp only [min_def] <;> split_ifs <;> omega
  · intro b o e e' f h
    have he := hcast e e' h
    unfold health_score_calc
    split_ifs <;>
      simp only [min_def] <;> split_ifs <;> omega
  · intro b o e f
    unfold health_score_calc
    split_ifs <;>
      simp only [min_def, max_def] <;> split_ifs <;> omega

/-- C8 witness. -/
theorem C8_witness :
    health_score_calc 2 1 1 5 ≤ health_score_calc 1 1 1 5 ∧
    health_score_calc 1 3 1 5 ≤ health_score_calc 1 1 1 5 ∧
    health_score_calc 1 1 4 5 ≤ health_score_calc 1 1 1 5 ∧
    0 ≤ health_score_calc 1 1 4 (-3) ∧ health_score_calc 1 1 4 (-3) ≤ 100 :=
  ⟨health_score_monotone_and_bounded.1 1 2 1 1 5 (by decide),
   health_score_monotone_and_bounded.2.1 1 1 3 1 5 (by decide),
   health_score_monotone_and_bounded.2.2.1 1 1 1 4 5 (by decide),
   health_score_monotone_and_bounded.2.2.2 1 1 4 (-3)⟩

/-! ### C10: PARTIALITY OF THE CRITICAL PATH AT THE EMPTY STORE -/

theorem dictInsert_ne_nil {α : Type} (k : Nat) (v : α) (d : List (Nat × α)) :
    dictInsert k v d ≠ [] := by
  cases d with
  | nil => simp [dictInsert]
  | cons p rest =>
      by_cases h : p.1 = k <;> simp [dictInsert, h]

theorem foldl_dictInsert_ne_nil {α β : Type} (f : β → Nat) (g : β → α) :
    ∀ (l : List β) (acc : List (Nat × α)), acc ≠ [] →
    l.foldl (fun d p => dictInsert (f p) (g p) d) acc ≠ [] := by
  intro l
  induction l with
  | nil => intro acc h; exact h
  | cons p rest ih =>
      intro acc _
      exact ih (dictInsert (f p) (g p) acc) (dictInsert_ne_nil _ _ _)

theorem processNeighbor_dist_ne_nil (tasks : List (Nat × Task)) (current : Nat)
    (st : KahnSt) (neighbor : Nat) (h : st.dist ≠ []) :
    (processNeighbor tasks current st neighbor).dist ≠ [] := by
  unfold processNeighbor
  dsimp only
  split_ifs <;>
    first
      | exact h
      | exact dictInsert_ne_nil _ _ _

theorem foldl_processNeighbor_dist_ne_nil (tasks : List (Nat × Task))
    (current : Nat) :
    ∀ (nbrs : List Nat) (st : KahnSt), st.dist ≠ [] →
    (nbrs.foldl (processNeighbor tasks current) st).dist ≠ [] := by
  intro nbrs
  induction nbrs with
  | nil => intro st h; exact h
  | cons n rest ih =>
      intro st h
      exact ih _ (processNeighbor_dist_ne_nil tasks current st n h)

theorem kahnLoop_dist_ne_nil (tasks : List (Nat × Task)) :
    ∀ (fuel : Nat) (st : KahnSt), st.dist ≠ [] →
    (kahnLoop tasks fuel st).dist ≠ [] := by
  intro fuel
  induction fuel with
  | zero => intro st h; exact h
  | succ n ih =>
      intro st h
      unfold kahnLoop
      cases hq : st.queue with
      | nil => exact h
      | cons current rest =>
          exact ih _ (foldl_processNeighbor_dist_ne_nil tasks current _
            { st with queue := rest } h)

/-- C10: `calculate_critical_path` is an error (the `ValueError` of a `max`
over an empty collection, modelled as `none`) exactly when the task store
is empty, and returns a result for every non-empty store; the failure
propagates unchanged to `get_project_health`. -/
theorem critical_path_none_iff_empty (s : DependencyTracker) (now : Nat) :
    (calculate_critical_path s = none ↔ s.tasks = []) ∧
    (get_project_health s now = none ↔ s.tasks = []) := by
  have hdist : s.tasks ≠ [] → (kahnFinal s).dist ≠ [] := by
    intro hne
    have hd0 : (s.tasks.foldl (fun d p => dictInsert p.1 (0 : Int) d) []) ≠ [] := by
      cases ht : s.tasks with
      | nil => exact absurd ht hne
      | cons p rest =>
          rw [List.foldl_cons]
          exact foldl_dictInsert_ne_nil Prod.fst (fun _ => (0 : Int)) rest _
            (dictInsert_ne_nil _ _ _)
    exact kahnLoop_dist_ne_nil s.tasks s.tasks.length (kahnInit s) hd0
  have h1 : calculate_critical_path s = none ↔ s.tasks = [] := by
    constructor
    · intro h
      by_contra hne
      cases hm : maxByVal (kahnFinal s).dist with
      | none =>
          cases hdl : (kahnFinal s).dist with
          | nil => exact hdist hne hdl
          | cons x xs => rw [hdl] at hm; cases hm
      | some k =>
          rw [calculate_critical_path.eq_def] at h
          simp only [hm] at h
          exact Option.noConfusion h
    · intro h
      obtain ⟨tasks, blockers, pd⟩ := s
      simp only at h
      subst h
      rfl
  refine ⟨h1, ?_⟩
  cases hc : calculate_critical_path s with
  | none => simp [get_project_health, hc, h1.mp hc]
  | some cp =>
      simp only [get_project_health, hc]
      constructor
      · intro h; cases h
      · intro h
        have h2 := h1.mpr h
        rw [h2] at hc
        cases hc

/-! ### C7: READY TASKS -/

theorem insertSorted_perm (le : Nat → Nat → Bool) (a : Nat) :
    ∀ l : List Nat, (insertSorted le a l).Perm (a :: l) := by
  intro l
  induction l with
  | nil => simp [insertSorted]
  | cons b rest ih =>
      unfold insertSorted
      split_ifs
      · exact List.Perm.refl _
      · exact (List.Perm.cons b ih).trans (List.Perm.swap a b rest)

theorem sortByLe_perm (le : Nat → Nat → Bool) :
    ∀ l : List Nat, (sortByLe le l).Perm l := by
  intro l
  induction l with
  | nil => exact List.Perm.refl _
  | cons a rest ih =>
      exact (insertSorted_perm le a (sortByLe le rest)).trans (List.Perm.cons a ih)

theorem mem_sortByLe (le : Nat → Nat → Bool) (l : List Nat) (x : Nat) :
    x ∈ sortByLe le l ↔ x ∈ l :=
  (sortByLe_perm le l).mem_iff

theorem insertSorted_pairwise (le : Nat → Nat → Bool)
    (htot : ∀ a b, le a b = true ∨ le b a = true)
    (htrans : ∀ a b c, le a b = true → le b c = true → le a c = true)
    (a : Nat) :
    ∀ l : List Nat, l.Pairwise (fun x y => le x y = true) →
    (insertSorted le a l).Pairwise (fun x y => le x y = true) := by
  intro l
  induction l with
  | nil => intro _; simp [insertSorted]
  | cons b rest ih =>
      intro hl
      rcases List.pairwise_cons.mp hl with ⟨hb, hrest⟩
      unfold insertSorted
      split_ifs with hab
      · refine List.pairwise_cons.mpr ⟨?_, hl⟩
        intro y hy
        rcases List.mem_cons.mp hy with h | h
        · rw [h]; exact hab
        · exact htrans a b y hab (hb y h)
      · have hba : le b a = true := (htot a b).resolve_left hab
        refine List.pairwise_cons.mpr ⟨?_, ih hrest⟩
        intro y hy
        rcases List.mem_cons.mp ((insertSorted_perm le a rest).mem_iff.mp hy) with h | h
        · rw [h]; exact hba
        · exact hb y h

theorem sortByLe_pairwise (le : Nat → Nat → Bool)
    (htot : ∀ a b, le a b = true ∨ le b a = true)
    (htrans : ∀ a b c, le a b = true → le b c = true → le a c = true) :
    ∀ l : List Nat, (sortByLe le l).Pairwise (fun x y => le x y = true) := by
  intro l
  induction l with
  | nil => simp [sortByLe]
  | cons a rest ih => exact insertSorted_pairwise le htot htrans a _ ih

theorem ready_le_total (s : DependencyTracker) (a b : Nat) :
    ready_le s a b = true ∨ ready_le s b a = true := by
  unfold ready_le
  simp only [decide_eq_true_eq]
  omega

theorem ready_le_trans (s : DependencyTracker) (a b c : Nat)
    (h1 : ready_le s a b = true) (h2 : ready_le s b c = true) :
    ready_le s a c = true := by
  unfold ready_le at h1 h2 ⊢
  simp only [decide_eq_true_eq] at h1 h2 ⊢
  omega

theorem taskIsReady_iff (s : DependencyTracker) (id : Nat) (t : Task) :
    taskIsReady s id t = true ↔
      (t.status = TaskStatus.not_started ∧
        (∀ dep ∈ t.dependencies, ∀ dt, dictLookup dep s.tasks = some dt →
          dt.status = TaskStatus.completed) ∧
        (∀ q ∈ s.blockers, q.2.task_id = id → q.2.resolved_date ≠ none)) := by
  unfold taskIsReady
  simp only [Bool.and_eq_true, decide_eq_true_eq, List.all_eq_true,
    List.isEmpty_iff, List.filter_eq_nil_iff, and_assoc]
  constructor
  · rintro ⟨h1, h2, h3⟩
    refine ⟨h1, ?_, ?_⟩
    · intro dep hdep dt hdt
      have := h2 dep hdep
      rw [hdt] at this
      simpa using this
    · intro q hq htid hres
      have := h3 q hq
      simp only [decide_eq_true_eq, not_and] at this
      exact this htid hres
  · rintro ⟨h1, h2, h3⟩
    refine ⟨h1, ?_, ?_⟩
    · intro dep hdep
      cases hdt : dictLookup dep s.tasks with
      | none => simp
      | some dt => simpa using h2 dep hdep dt hdt
    · intro q hq
      simp only [decide_eq_true_eq, not_and]
      exact h3 q hq

/-- C7: `get_ready_tasks` returns exactly the NOT_STARTED tasks all of
whose existing dependencies are COMPLETED and which have no open blocker —
in particular never a task with an incomplete existing dependency or an
open blocker — ordered by the key (priority urgency, estimatedDays
ascending). -/
theorem get_ready_tasks_spec (s : DependencyTracker) :
    (∀ id, id ∈ get_ready_tasks s ↔ ∃ t, (id, t) ∈ s.tasks ∧
      t.status = TaskStatus.not_started ∧
      (∀ dep ∈ t.dependencies, ∀ dt, dictLookup dep s.tasks = some dt →
        dt.status = TaskStatus.completed) ∧
      (∀ q ∈ s.blockers, q.2.task_id = id → q.2.resolved_date ≠ none)) ∧
    List.Pairwise (fun a b => ready_le s a b = true) (get_ready_tasks s) := by
  constructor
  · intro id
    unfold get_ready_tasks
    rw [mem_sortByLe]
    simp only [List.mem_map, List.mem_filter]
    constructor
    · rintro ⟨⟨pid, t⟩, ⟨hmem, hf⟩, rfl⟩
      exact ⟨t, hmem, (taskIsReady_iff s pid t).mp hf⟩
    · rintro ⟨t, hmem, hcond⟩
      exact ⟨(id, t), ⟨hmem, (taskIsReady_iff s id t).mpr hcond⟩, rfl⟩
  · exact sortByLe_pairwise _ (ready_le_total s) (ready_le_trans s) _

/-! ### C9: AGENT WORKLOAD REMAINING DAYS -/

theorem remainingSpecL_cons (p : Nat × Task) (l : List (Nat × Task)) (ag : String) :
    remainingSpecL (p :: l) ag = taskContribution p ag + remainingSpecL l ag := by
  unfold remainingSpecL taskContribution
  by_cases hc : p.2.agent = ag ∧
      (p.2.status = TaskStatus.not_started ∨
       p.2.status = TaskStatus.in_progress ∨
       p.2.status = TaskStatus.blocked)
  · simp [List.filter_cons, hc]
  · simp [List.filter_cons, hc]

theorem workloadStep_some (w0 : List (String × AgentLoad)) (p : Nat × Task)
    (h : p.2.status ≠ TaskStatus.on_hold) :
    ∃ w1, workloadStep w0 p = some w1 ∧
      ∀ ag, agentRemaining w1 ag = agentRemaining w0 ag + taskContribution p ag := by
  have key : ∀ (cur3 : AgentLoad), cur3.remaining_days
        = agentRemaining w0 p.2.agent + taskContribution p p.2.agent →
      ∀ ag, agentRemaining (dictInsert p.2.agent cur3 w0) ag
        = agentRemaining w0 ag + taskContribution p ag := by
    intro cur3 hcur ag
    by_cases hag : ag = p.2.agent
    · subst hag
      unfold agentRemaining
      rw [dictLookup_insert_self]
      exact hcur
    · unfold agentRemaining
      rw [dictLookup_insert_ne _ _ _ _ hag]
      have hz : taskContribution p ag = 0 := by
        unfold taskContribution
        rw [if_neg]
        rintro ⟨h1, -⟩
        exact hag h1.symm
      rw [hz, add_zero]
  unfold workloadStep
  cases hst : p.2.status with
  | on_hold => exact absurd hst h
  | not_started =>
      simp only [hst, statusBump]
      refine ⟨_, rfl, key _ ?_⟩
      simp [taskContribution, hst, agentRemaining]
  | in_progress =>
      simp only [hst, statusBump]
      refine ⟨_, rfl, key _ ?_⟩
      simp [taskContribution, hst, agentRemaining]
  | blocked =>
      simp only [hst, statusBump]
      refine ⟨_, rfl, key _ ?_⟩
      simp [taskContribution, hst, agentRemaining]
  | completed =>
      simp only [hst, statusBump]
      refine ⟨_, rfl, key _ ?_⟩
      simp [taskContribution, hst, agentRemaining]
  -- each branch: the stored record's `remaining_days` is the old value
  -- plus the task's contribution (zero for COMPLETED)

theorem workload_fold (l : List (Nat × Task)) :
    ∀ (w0 : List (String × AgentLoad)),
    (∀ p ∈ l, p.2.status ≠ TaskStatus.on_hold) →
    ∃ w, l.foldlM workloadStep w0 = some w ∧
      ∀ ag, agentRemaining w ag = agentRemaining w0 ag + remainingSpecL l ag := by
  induction l with
  | nil =>
      intro w0 _
      refine ⟨w0, rfl, fun ag => ?_⟩
      unfold remainingSpecL
      simp
  | cons p rest ih =>
      intro w0 hl
      obtain ⟨w1, hw1, hrem1⟩ :=
        workloadStep_some w0 p (hl p (List.mem_cons_self _ _))
      obtain ⟨w, hw, hrem⟩ := ih w1 (fun q hq => hl q (List.mem_cons_of_mem _ hq))
      refine ⟨w, ?_, fun ag => ?_⟩
      · rw [List.foldlM_cons, hw1]
        exact hw
      · rw [hrem ag, hrem1 ag, remainingSpecL_cons, add_assoc]

/-- Fixture for C9: one ON_HOLD task worth 10 remaining days. -/
def storeC9 : DependencyTracker :=
  (update_task_status
    ((DependencyTracker.add_task DependencyTracker.init 1 "t" "a" 10 []
        Priority.medium [] []).2)
    0 1 TaskStatus.on_hold none none).2

/-- C9 counterexample: on a store whose only task is ON_HOLD (so the claim
would require `remainingDays = 10` for agent `"a"`), `get_agent_workload`
raises `KeyError` (the per-agent dict has no `"on_hold"` key) instead of
returning any map, and even with that key ON_HOLD tasks are excluded from
the `remaining_days` sum by the explicit status list in the source. -/
theorem C9_counterexample :
    ((dictLookup 1 storeC9.tasks).map Task.status = some TaskStatus.on_hold) ∧
    ((dictLookup 1 storeC9.tasks).map Task.estimated_days = some 10) ∧
    ((dictLookup 1 storeC9.tasks).map Task.completion_percentage = some 0) ∧
    get_agent_workload storeC9 = none := by
  decide

/-- C9 (amended): on every store with no ON_HOLD task (on any other store
`get_agent_workload` raises `KeyError`), the reported `remaining_days` of
every agent equals the sum of `estimatedDays × (1 − completionPercentage/100)`
over the agent's tasks with status NOT_STARTED, IN_PROGRESS or BLOCKED —
ON_HOLD tasks are not included. -/
theorem get_agent_workload_remaining (s : DependencyTracker)
    (h : ∀ p ∈ s.tasks, p.2.status ≠ TaskStatus.on_hold) :
    ∃ w, get_agent_workload s = some w ∧
      ∀ ag, agentRemaining w ag = remainingSpec s ag := by
  obtain ⟨w, hw, hrem⟩ := workload_fold s.tasks [] h
  refine ⟨w, hw, fun ag => ?_⟩
  rw [hrem ag]
  unfold remainingSpec agentRemaining dictLookup
  simp [AgentLoad.initLoad]

/-- Fixture for the C9 witness: a NOT_STARTED task (4 days), an IN_PROGRESS
task at 50% (10 days), and a COMPLETED task, all owned by agent `"a"`. -/
def storeC9w : DependencyTracker :=
  let s1 := (DependencyTracker.add_task DependencyTracker.init 1 "t1" "a" 4 []
    Priority.medium [] []).2
  let s2 := (DependencyTracker.add_task s1 2 "t2" "a" 10 [] Priority.medium [] []).2
  let s3 := (DependencyTracker.add_task s2 3 "t3" "a" 7 [] Priority.medium [] []).2
  let s4 := (update_task_status s3 0 2 TaskStatus.in_progress (some 50) none).2
  (update_task_status s4 1 3 TaskStatus.completed none none).2

/-- C9 witness. -/
theorem C9_witness :
    ∃ w, get_agent_workload storeC9w = some w ∧
      ∀ ag, agentRemaining w ag = remainingSpec storeC9w ag :=
  get_agent_workload_remaining storeC9w (by decide)

/-! ### C2: THE blocks/dependencies INVERSE INVARIANT UNDER AddTask -/

theorem lookup_eq_of_mem_nodup {α : Type} {d : List (Nat × α)}
    (hnd : (d.map Prod.fst).Nodup) {p : Nat × α} (hp : p ∈ d) :
    dictLookup p.1 d = some p.2 := by
  induction d with
  | nil => cases hp
  | cons q rest ih =>
      simp only [List.map_cons, List.nodup_cons] at hnd
      rcases List.mem_cons.mp hp with h | h
      · rw [h]
        simp [dictLookup]
      · have hne : q.1 ≠ p.1 := by
          intro he
          exact hnd.1 (he ▸ List.mem_map_of_mem Prod.fst h)
        simp only [dictLookup, if_neg hne]
        exact ih hnd.2 h

theorem mem_of_lookup {α : Type} {d : List (Nat × α)} {k : Nat} {v : α}
    (h : dictLookup k d = some v) : (k, v) ∈ d := by
  induction d with
  | nil => cases h
  | cons q rest ih =>
      by_cases hq : q.1 = k
      · simp only [dictLookup, if_pos hq] at h
        rw [← hq, ← Option.some.inj h]
        exact List.mem_cons_self _ _
      · simp only [dictLookup, if_neg hq] at h
        exact List.mem_cons_of_mem _ (ih h)

/-- Store well-formedness maintained by valid `add_task` sequences: unique
keys, `blocks` and `dependencies` entries name stored tasks, and the
`blocks`/`dependencies` inverse invariant. -/
def StoreWF (s : DependencyTracker) : Prop :=
  (s.tasks.map Prod.fst).Nodup ∧
  (∀ p ∈ s.tasks, ∀ b ∈ p.2.blocks, (dictLookup b s.tasks).isSome) ∧
  (∀ p ∈ s.tasks, ∀ d ∈ p.2.dependencies, (dictLookup d s.tasks).isSome) ∧
  BlocksInvariant s

theorem add_task_preserves_WF (s : DependencyTracker) (task_id : Nat)
    (nm ag : String) (est : Int) (deps : List Nat) (prio : Priority)
    (dv sc : List String) (hwf : StoreWF s)
    (hfresh : dictLookup task_id s.tasks = none)
    (hdeps : ∀ d ∈ deps, (dictLookup d s.tasks).isSome) :
    StoreWF (add_task s task_id nm ag est deps prio dv sc).2 := by
  obtain ⟨hnd, hblocks, hdepsWF, hinv⟩ := hwf
  have hne_dep : ∀ d ∈ deps, d ≠ task_id := by
    intro d hd he
    have hds := hdeps d hd
    rw [he, hfresh] at hds
    cases hds
  set task0 : Task :=
    { id := task_id, name := nm, agent := ag, status := TaskStatus.not_started,
      priority := prio, estimated_days := est, actual_days := 0,
      start_date := none, end_date := none, dependencies := deps, blocks := [],
      deliverables := dv, success_criteria := sc, completion_percentage := 0,
      notes := "" } with htask0
  have hres : (add_task s task_id nm ag est deps prio dv sc).2.tasks
      = deps.foldl (addTaskFoldStep task_id) (dictInsert task_id task0 s.tasks) := rfl
  set tasks1 := dictInsert task_id task0 s.tasks with htasks1
  have hdeps1 : ∀ d ∈ deps, (dictLookup d tasks1).isSome := by
    intro d hd
    rw [htasks1, dictLookup_insert_ne _ _ _ _ (hne_dep d hd)]
    exact hdeps d hd
  have hlook2 := addTaskFold_lookup task_id deps tasks1 hdeps1
  have hkeys2 : (deps.foldl (addTaskFoldStep task_id) tasks1).map Prod.fst
      = s.tasks.map Prod.fst ++ [task_id] := by
    rw [addTaskFold_keys, htasks1, dictInsert_keys_of_fresh _ _ _ hfresh]
  have hfreshmem : task_id ∉ s.tasks.map Prod.fst :=
    (dictLookup_eq_none_iff_not_mem task_id s.tasks).mp hfresh
  have hnd2 : ((deps.foldl (addTaskFoldStep task_id) tasks1).map Prod.fst).Nodup := by
    rw [hkeys2]
    simp [List.nodup_append, hnd, hfreshmem]
  -- characterise each stored pair of the result
  have hchar : ∀ p ∈ (deps.foldl (addTaskFoldStep task_id) tasks1),
      ∃ t1, dictLookup p.1 tasks1 = some t1 ∧
        p.2 = { t1 with blocks := t1.blocks ++ List.replicate (deps.count p.1) task_id } := by
    intro p hp
    have hl := lookup_eq_of_mem_nodup hnd2 hp
    rw [hlook2 p.1] at hl
    cases h1 : dictLookup p.1 tasks1 with
    | none => rw [h1] at hl; cases hl
    | some t1 =>
        rw [h1, Option.map_some'] at hl
        exact ⟨t1, rfl, (Option.some.inj hl).symm⟩
  -- dichotomy on a key of tasks1
  have hdicho : ∀ (k : Nat) (t1 : Task), dictLookup k tasks1 = some t1 →
      (k = task_id ∧ t1 = task0) ∨
      (k ≠ task_id ∧ dictLookup k s.tasks = some t1 ∧ (k, t1) ∈ s.tasks) := by
    intro k t1 h1
    by_cases hk : k = task_id
    · subst hk
      rw [htasks1, dictLookup_insert_self] at h1
      exact Or.inl ⟨rfl, (Option.some.inj h1).symm⟩
    · rw [htasks1, dictLookup_insert_ne _ _ _ _ hk] at h1
      exact Or.inr ⟨hk, h1, mem_of_lookup h1⟩
  have hlift : ∀ k, (dictLookup k (deps.foldl (addTaskFoldStep task_id) tasks1)).isSome
      ↔ (dictLookup k tasks1).isSome := by
    intro k
    rw [hlook2 k]
    cases dictLookup k tasks1 <;> simp
  have hlift1 : ∀ k, (dictLookup k tasks1).isSome
      ↔ (k = task_id ∨ (dictLookup k s.tasks).isSome) := by
    intro k
    by_cases hk : k = task_id
    · subst hk
      rw [htasks1, dictLookup_insert_self]
      simp
    · rw [htasks1, dictLookup_insert_ne _ _ _ _ hk]
      simp [hk]
  -- deps of old tasks never name the fresh id
  have hold_dep : ∀ q ∈ s.tasks, task_id ∉ q.2.dependencies := by
    intro q hq hmem
    have := hdepsWF q hq task_id hmem
    rw [hfresh] at this
    cases this
  -- blocks of old tasks never name the fresh id
  have hold_blk : ∀ q ∈ s.tasks, task_id ∉ q.2.blocks := by
    intro q hq hmem
    have := hblocks q hq task_id hmem
    rw [hfresh] at this
    cases this
  rw [StoreWF, hres]
  refine ⟨hnd2, ?_, ?_, ?_⟩
  · -- blocks entries name stored tasks
    intro p hp b hb
    obtain ⟨t1, h1, h2⟩ := hchar p hp
    rw [h2] at hb
    simp only [List.mem_append] at hb
    rw [hlift, hlift1]
    rcases hb with hb | hb
    · rcases hdicho p.1 t1 h1 with ⟨-, ht⟩ | ⟨-, -, hmem⟩
      · rw [ht] at hb; cases hb
      · exact Or.inr (hblocks _ hmem b hb)
    · rcases List.mem_replicate.mp hb with ⟨-, hbe⟩
      exact Or.inl hbe
  · -- dependency entries name stored tasks
    intro p hp d hd
    obtain ⟨t1, h1, h2⟩ := hchar p hp
    rw [h2] at hd
    simp only at hd
    rw [hlift, hlift1]
    rcases hdicho p.1 t1 h1 with ⟨-, ht⟩ | ⟨-, -, hmem⟩
    · rw [ht] at hd
      exact Or.inr (hdeps d hd)
    · exact Or.inr (hdepsWF _ hmem d hd)
  · -- the inverse invariant
    intro p hp q hq
    obtain ⟨tp, hp1, hp2⟩ := hchar p hp
    obtain ⟨tq, hq1, hq2⟩ := hchar q hq
    rw [hp2, hq2]
    simp only [List.mem_append, List.mem_replicate]
    have hcnt : ∀ x, (deps.count x ≠ 0 ↔ x ∈ deps) := by
      intro x
      constructor
      · intro hc
        exact List.count_pos_iff.mp (Nat.pos_of_ne_zero hc)
      · intro hm
        exact Nat.pos_iff_ne_zero.mp (List.count_pos_iff.mpr hm)
    rcases hdicho p.1 tp hp1 with ⟨hpid, hpt⟩ | ⟨hpid, -, hpmem⟩
    · rcases hdicho q.1 tq hq1 with ⟨hqid, hqt⟩ | ⟨hqid, -, hqmem⟩
      · -- both are the new task
        simp [hpt, hqt, htask0, hpid, hqid, hcnt]
      · -- p is the new task, q is an old task
        have hnb : task_id ∉ tq.blocks := hold_blk _ hqmem
        simp [hpt, htask0, hcnt, hpid, hnb]
    · rcases hdicho q.1 tq hq1 with ⟨hqid, hqt⟩ | ⟨hqid, -, hqmem⟩
      · -- p is an old task, q is the new task
        have hnd3 : q.1 ∉ tp.dependencies := by
          rw [hqid]
          exact hold_dep _ hpmem
        simp [hqt, htask0, hnd3, hpid]
      · -- both are old tasks
        have hbase := hinv _ hpmem _ hqmem
        simp only at hbase
        simp [hbase, hpid]

/-- The arguments of one `AddTask` call (the generated `uuid4` included as
`task_id`). -/
structure AddTaskOp where
  task_id : Nat
  name : String
  agent : String
  estimated_days : Int
  dependencies : List Nat
  priority : Priority
  deliverables : List String
  success_criteria : List String
deriving Repr, DecidableEq

/-- Apply one `AddTask` call. -/
def applyOp (s : DependencyTracker) (op : AddTaskOp) : DependencyTracker :=
  (add_task s op.task_id op.name op.agent op.estimated_days op.dependencies
    op.priority op.deliverables op.success_criteria).2

/-- Apply a sequence of `AddTask` calls. -/
def runAddTasks (s : DependencyTracker) : List AddTaskOp → DependencyTracker
  | [] => s
  | op :: rest => runAddTasks (applyOp s op) rest

/-- A sequence of `AddTask` calls is valid when each generated id is fresh
(which `uuid4` guarantees) and each listed dependency already lives in the
store at the time of its call. -/
def validOpsB : DependencyTracker → List AddTaskOp → Bool
  | _, [] => true
  | s, op :: rest =>
      (dictLookup op.task_id s.tasks = none : Bool) &&
      op.dependencies.all (fun d => (dictLookup d s.tasks).isSome) &&
      validOpsB (applyOp s op) rest

theorem runAddTasks_WF (ops : List AddTaskOp) :
    ∀ s : DependencyTracker, StoreWF s → validOpsB s ops = true →
    StoreWF (runAddTasks s ops) := by
  induction ops with
  | nil => intro s hwf _; exact hwf
  | cons op rest ih =>
      intro s hwf hv
      simp only [validOpsB, Bool.and_eq_true, decide_eq_true_eq,
        List.all_eq_true] at hv
      obtain ⟨⟨hfresh, hdeps⟩, hrest⟩ := hv
      exact ih (applyOp s op)
        (add_task_preserves_WF s op.task_id op.name op.agent op.estimated_days
          op.dependencies op.priority op.deliverables op.success_criteria hwf
          hfresh hdeps) hrest

theorem init_WF : StoreWF DependencyTracker.init := by
  refine ⟨List.nodup_nil, ?_, ?_, ?_⟩ <;>
    intro p hp <;> cases hp

/-- C2 counterexample: a task created with a dependency id that does not
exist yet, followed by the creation of the task carrying that id — the
later task's `blocks` list is never back-patched, so the
dependencies/blocks invariant fails. -/
def opsC2c : List AddTaskOp :=
  [{ task_id := 1, name := "A", agent := "a", estimated_days := 5,
     dependencies := [2], priority := Priority.medium, deliverables := [],
     success_criteria := [] },
   { task_id := 2, name := "B", agent := "a", estimated_days := 3,
     dependencies := [], priority := Priority.medium, deliverables := [],
     success_criteria := [] }]

/-- An arbitrary default task record (used only as a `getD` default on
lookups that are known to succeed). -/
def taskDefault : Task :=
  { id := 0, name := "", agent := "", status := TaskStatus.not_started,
    priority := Priority.medium, estimated_days := 0, actual_days := 0,
    start_date := none, end_date := none, dependencies := [], blocks := [],
    deliverables := [], success_criteria := [], completion_percentage := 0,
    notes := "" }

/-- C2 counterexample theorem: after the two calls, 2 ∈ dependencies(1) but
1 ∉ blocks(2), so the biconditional fails. -/
theorem C2_counterexample :
    ((dictLookup 1 (runAddTasks DependencyTracker.init opsC2c).tasks).map
      Task.dependencies = some [2]) ∧
    ((dictLookup 2 (runAddTasks DependencyTracker.init opsC2c).tasks).map
      Task.blocks = some []) ∧
    ¬ BlocksInvariant (runAddTasks DependencyTracker.init opsC2c) := by
  refine ⟨by decide, by decide, ?_⟩
  intro hinv
  have := (hinv (1, (dictLookup 1 (runAddTasks DependencyTracker.init opsC2c).tasks).getD
      taskDefault) (by decide) (2, (dictLookup 2 (runAddTasks DependencyTracker.init
      opsC2c).tasks).getD taskDefault) (by decide))
  revert this
  decide

/-- C2 (amended): for every sequence of `AddTask` calls in which each listed
dependency refers to a task already present in the store at the time of the
call (dangling forward references excluded — the code never back-patches
`blocks` when the referenced id is created later), the invariant holds for
every pair of stored tasks: B ∈ A.dependencies ⇔ A ∈ B.blocks. -/
theorem blocks_invariant_of_valid_ops (ops : List AddTaskOp)
    (h : validOpsB DependencyTracker.init ops = true) :
    BlocksInvariant (runAddTasks DependencyTracker.init ops) :=
  (runAddTasks_WF ops DependencyTracker.init init_WF h).2.2.2

/-- Valid two-call sequence for the C2 witness. -/
def opsC2w : List AddTaskOp :=
  [{ task_id := 1, name := "A", agent := "a", estimated_days := 5,
     dependencies := [], priority := Priority.medium, deliverables := [],
     success_criteria := [] },
   { task_id := 2, name := "B", agent := "a", estimated_days := 3,
     dependencies := [1], priority := Priority.medium, deliverables := [],
     success_criteria := [] }]

/-- C2 witness. -/
theorem C2_witness :
    BlocksInvariant (runAddTasks DependencyTracker.init opsC2w) :=
  blocks_invariant_of_valid_ops opsC2w (by decide)

/-! ### C1: THE CRITICAL PATH

The Kahn-style longest-path loop is verified through a loop invariant
relative to the list `P` of already-popped keys (the ghost pop order). -/

/-- The distance recorded for a key. -/
def distVal (st : KahnSt) (v : Nat) : Int := (dictLookup v st.dist).getD 0

/-- The premises C1 grants about the store: unique keys, dependencies and
blocks both referencing stored tasks, `blocks` the exact multiset inverse
of `dependencies`, and an acyclic dependency graph, witnessed by a rank
function that strictly increases along dependency edges. -/
structure GraphOK (T : List (Nat × Task)) (rank : Nat → Nat) : Prop where
  nodup : (keysOf T).Nodup
  deps_mem : ∀ k ∈ keysOf T, ∀ d ∈ depsOf T k, d ∈ keysOf T
  blocks_mem : ∀ k ∈ keysOf T, ∀ b ∈ blocksOf T k, b ∈ keysOf T
  consistent : ∀ u ∈ keysOf T, ∀ v ∈ keysOf T,
      List.count v (blocksOf T u) = List.count u (depsOf T v)
  ranked : ∀ v ∈ keysOf T, ∀ d ∈ depsOf T v, rank d < rank v

/-- The loop invariant of the `while queue:` loop, between iterations.
`P` is the list of keys popped so far. -/
structure KahnInv (T : List (Nat × Task)) (P : List Nat) (st : KahnSt) : Prop where
  keys_indeg : st.indeg.map Prod.fst = keysOf T
  keys_dist : st.dist.map Prod.fst = keysOf T
  keys_pred : st.pred.map Prod.fst = keysOf T
  p_nodup : P.Nodup
  p_sub : ∀ x ∈ P, x ∈ keysOf T
  q_nodup : st.queue.Nodup
  q_sub : ∀ x ∈ st.queue, x ∈ keysOf T
  pq_disj : ∀ x ∈ P, x ∉ st.queue
  indeg_eq : ∀ v ∈ keysOf T, dictLookup v st.indeg
      = some (((depsOf T v).countP (fun d => decide (d ∉ P)) : Int))
  member_iff : ∀ v ∈ keysOf T, (v ∈ P ∨ v ∈ st.queue) ↔ (∀ d ∈ depsOf T v, d ∈ P)
  dist_nonneg : ∀ v ∈ keysOf T, 0 ≤ distVal st v
  pred_none : ∀ v ∈ keysOf T, dictLookup v st.pred = some none → distVal st v = 0
  pred_some : ∀ v ∈ keysOf T, ∀ p, dictLookup v st.pred = some (some p) →
      p ∈ P ∧ p ∈ depsOf T v ∧ distVal st v = distVal st p + estOf T p
  edge_low : ∀ u ∈ P, ∀ v ∈ blocksOf T u, distVal st u + estOf T u ≤ distVal st v

/-- The invariant in the middle of one iteration, after popping `current`
(already appended to `P`) and relaxing the `processed` prefix of its
`blocks` list. -/
structure KahnMid (T : List (Nat × Task)) (P : List Nat) (current : Nat)
    (processed : List Nat) (st : KahnSt) : Prop where
  keys_indeg : st.indeg.map Prod.fst = keysOf T
  keys_dist : st.dist.map Prod.fst = keysOf T
  keys_pred : st.pred.map Prod.fst = keysOf T
  p_nodup : P.Nodup
  p_sub : ∀ x ∈ P, x ∈ keysOf T
  q_nodup : st.queue.Nodup
  q_sub : ∀ x ∈ st.queue, x ∈ keysOf T
  pq_disj : ∀ x ∈ P, x ∉ st.queue
  cur_p : current ∈ P
  cur_keys : current ∈ keysOf T
  indeg_eq : ∀ v ∈ keysOf T, dictLookup v st.indeg
      = some ((((depsOf T v).countP (fun d => decide (d ∉ P))) : Int)
          + (List.count current (depsOf T v) : Int) - (List.count v processed : Int))
  member_iff : ∀ v ∈ keysOf T, (v ∈ P ∨ v ∈ st.queue) ↔ dictLookup v st.indeg = some 0
  dist_nonneg : ∀ v ∈ keysOf T, 0 ≤ distVal st v
  pred_none : ∀ v ∈ keysOf T, dictLookup v st.pred = some none → distVal st v = 0
  pred_some : ∀ v ∈ keysOf T, ∀ p, dictLookup v st.pred = some (some p) →
      p ∈ P ∧ p ∈ depsOf T v ∧ distVal st v = distVal st p + estOf T p
  edge_low_old : ∀ u ∈ P, u ≠ current → ∀ v ∈ blocksOf T u,
      distVal st u + estOf T u ≤ distVal st v
  edge_low_cur : ∀ v ∈ processed, distVal st current + estOf T current ≤ distVal st v

theorem mem_map_fst_filter {α : Type} (l : List (Nat × α)) (f : Nat × α → Bool)
    (x : Nat) :
    x ∈ (l.filter f).map Prod.fst ↔ ∃ p ∈ l, f p = true ∧ p.1 = x := by
  simp only [List.mem_map, List.mem_filter]
  constructor
  · rintro ⟨p, ⟨hp, hf⟩, hfst⟩
    exact ⟨p, hp, hf, hfst⟩
  · rintro ⟨p, hp, hf, hfst⟩
    exact ⟨p, ⟨hp, hf⟩, hfst⟩

theorem dictInsert_eq_append_of_fresh {α : Type} (k : Nat) (v : α)
    (d : List (Nat × α)) (h : dictLookup k d = none) :
    dictInsert k v d = d ++ [(k, v)] := by
  induction d with
  | nil => rfl
  | cons p rest ih =>
      by_cases hp : p.1 = k
      · simp [dictLookup, hp] at h
      · simp only [dictLookup, if_neg hp] at h
        simp [dictInsert, hp, ih h]

theorem dictLookup_append {α : Type} (k : Nat) (a b : List (Nat × α)) :
    dictLookup k (a ++ b) =
      match dictLookup k a with
      | some v => some v
      | none => dictLookup k b := by
  induction a with
  | nil => simp [dictLookup]
  | cons p rest ih =>
      by_cases hp : p.1 = k
      · simp [dictLookup, hp]
      · simp [dictLookup, hp, ih]

theorem buildMap_eq {α : Type} (f : Nat × Task → α) :
    ∀ (T : List (Nat × Task)) (acc : List (Nat × α)),
    (∀ p ∈ T, dictLookup p.1 acc = none) → (T.map Prod.fst).Nodup →
    T.foldl (fun d p => dictInsert p.1 (f p) d) acc
      = acc ++ T.map (fun p => (p.1, f p)) := by
  intro T
  induction T with
  | nil => intro acc _ _; simp
  | cons p rest ih =>
      intro acc hacc hnd
      simp only [List.map_cons, List.nodup_cons] at hnd
      rw [List.foldl_cons,
        dictInsert_eq_append_of_fresh p.1 (f p) acc (hacc p (List.mem_cons_self _ _)),
        ih (acc ++ [(p.1, f p)]) ?_ hnd.2]
      · simp
      · intro q hq
        rw [dictLookup_append]
        rw [hacc q (List.mem_cons_of_mem _ hq)]
        simp only [dictLookup]
        have hne : ¬ (p.1 = q.1) := by
          intro he
          exact hnd.1 (he ▸ List.mem_map_of_mem Prod.fst hq)
        simp [hne]

theorem dictLookup_map_pair {α : Type} (f : Nat × Task → α) (k : Nat) :
    ∀ T : List (Nat × Task),
    dictLookup k (T.map (fun p => (p.1, f p)))
      = Option.map (fun t => f (k, t)) (dictLookup k T) := by
  intro T
  induction T with
  | nil => rfl
  | cons p rest ih =>
      by_cases hp : p.1 = k
      · subst hp
        cases p with
        | mk k0 t0 => simp [dictLookup]
      · simp [dictLookup, hp, ih]

/-- The initial Kahn state satisfies the loop invariant with no key popped. -/
theorem kahnInit_inv (s : DependencyTracker) (rank : Nat → Nat)
    (hg : GraphOK s.tasks rank) : KahnInv s.tasks [] (kahnInit s) := by
  have hb1 : ∀ p ∈ s.tasks, dictLookup p.1 ([] : List (Nat × Int)) = none :=
    fun p _ => rfl
  have hb2 : ∀ p ∈ s.tasks, dictLookup p.1 ([] : List (Nat × Option Nat)) = none :=
    fun p _ => rfl
  have hind := buildMap_eq (fun p => ((p.2.dependencies.length : Int))) s.tasks []
    hb1 hg.nodup
  have hdst := buildMap_eq (fun _ => (0 : Int)) s.tasks [] hb1 hg.nodup
  have hprd := buildMap_eq (fun _ => (none : Option Nat)) s.tasks [] hb2 hg.nodup
  have hindL : ∀ k, dictLookup k (kahnInit s).indeg
      = Option.map (fun t : Task => ((t.dependencies.length : Int))) (dictLookup k s.tasks) := by
    intro k
    show dictLookup k (s.tasks.foldl (fun d p => dictInsert p.1 ((p.2.dependencies.length : Int)) d) []) = _
    rw [hind]
    simp only [List.nil_append]
    exact dictLookup_map_pair _ k s.tasks
  have hdstL : ∀ k, dictLookup k (kahnInit s).dist
      = Option.map (fun _ : Task => (0 : Int)) (dictLookup k s.tasks) := by
    intro k
    show dictLookup k (s.tasks.foldl (fun d p => dictInsert p.1 (0 : Int) d) []) = _
    rw [hdst]
    simp only [List.nil_append]
    exact dictLookup_map_pair _ k s.tasks
  have hprdL : ∀ k, dictLookup k (kahnInit s).pred
      = Option.map (fun _ : Task => (none : Option Nat)) (dictLookup k s.tasks) := by
    intro k
    show dictLookup k (s.tasks.foldl (fun d p => dictInsert p.1 (none : Option Nat) d) []) = _
    rw [hprd]
    simp only [List.nil_append]
    exact dictLookup_map_pair _ k s.tasks
  have hkeys : ∀ {α : Type} (g : Nat × Task → α),
      (s.tasks.map (fun p => (p.1, g p))).map Prod.fst = keysOf s.tasks := by
    intro α g
    rw [List.map_map]
    rfl
  have hlookup_of_mem : ∀ k ∈ keysOf s.tasks, ∃ t, dictLookup k s.tasks = some t := by
    intro k hk
    have := (dictLookup_isSome_iff_mem_keys k s.tasks).mpr hk
    exact Option.isSome_iff_exists.mp this
  -- the seed queue
  have hqueue : (kahnInit s).queue
      = (((s.tasks.foldl (fun d p => dictInsert p.1 ((p.2.dependencies.length : Int)) d)
          []).filter (fun p => p.2 = 0)).map Prod.fst) := rfl
  have hqmem : ∀ x, x ∈ (kahnInit s).queue ↔
      ∃ q ∈ s.tasks, q.1 = x ∧ ((q.2.dependencies.length : Int)) = 0 := by
    intro x
    rw [hqueue]
    constructor
    · intro hx
      obtain ⟨p, hp, h0, hfst⟩ := (mem_map_fst_filter _ _ x).mp hx
      rw [hind, List.nil_append] at hp
      obtain ⟨q, hq, rfl⟩ := List.mem_map.mp hp
      exact ⟨q, hq, hfst, by simpa using h0⟩
    · rintro ⟨q, hq, rfl, h0⟩
      refine (mem_map_fst_filter _ _ _).mpr ?_
      refine ⟨(q.1, ((q.2.dependencies.length : Int))), ?_, by simpa using h0, rfl⟩
      rw [hind, List.nil_append]
      exact List.mem_map.mpr ⟨q, hq, rfl⟩
  refine ⟨?_, ?_, ?_, List.nodup_nil, ?_, ?_, ?_, ?_, ?_, ?_, ?_, ?_, ?_, ?_⟩
  · show (s.tasks.foldl (fun d p => dictInsert p.1 ((p.2.dependencies.length : Int)) d)
        []).map Prod.fst = keysOf s.tasks
    rw [hind]; simp only [List.nil_append]; exact hkeys _
  · show (s.tasks.foldl (fun d p => dictInsert p.1 (0 : Int) d) []).map Prod.fst
      = keysOf s.tasks
    rw [hdst]; simp only [List.nil_append]; exact hkeys _
  · show (s.tasks.foldl (fun d p => dictInsert p.1 (none : Option Nat) d) []).map Prod.fst
      = keysOf s.tasks
    rw [hprd]; simp only [List.nil_append]; exact hkeys _
  · intro x hx; cases hx
  · -- queue nodup
    rw [hqueue, hind]
    simp only [List.nil_append]
    have hsub : ((s.tasks.map (fun p => (p.1, ((p.2.dependencies.length : Int))))).filter
        (fun p => p.2 = 0)).map Prod.fst |>.Sublist
        ((s.tasks.map (fun p => (p.1, ((p.2.dependencies.length : Int))))).map Prod.fst) :=
      (List.filter_sublist _).map Prod.fst
    refine List.Nodup.sublist hsub ?_
    rw [hkeys]
    exact hg.nodup
  · -- queue ⊆ keys
    intro x hx
    obtain ⟨q, hq, hfst, -⟩ := (hqmem x).mp hx
    rw [← hfst]
    exact List.mem_map_of_mem Prod.fst hq
  · intro x hx; cases hx
  · -- indeg_eq at P = []
    intro v hv
    obtain ⟨t, ht⟩ := hlookup_of_mem v hv
    rw [hindL v, ht]
    simp only [Option.map_some', Option.some.injEq]
    have : (depsOf s.tasks v).countP (fun d => decide (d ∉ ([] : List Nat)))
        = (depsOf s.tasks v).length := by
      rw [List.countP_eq_length]
      intro a _
      simp
    rw [this]
    unfold depsOf
    rw [ht]
  · -- member_iff at P = []
    intro v hv
    obtain ⟨t, ht⟩ := hlookup_of_mem v hv
    constructor
    · rintro (hx | hx)
      · cases hx
      · obtain ⟨q, hq, hq1, hp0⟩ := (hqmem v).mp hx
        intro d hd
        exfalso
        have hql : dictLookup v s.tasks = some q.2 := by
          rw [← hq1]
          exact lookup_eq_of_mem_nodup hg.nodup hq
        have hdv : depsOf s.tasks v = q.2.dependencies := by
          unfold depsOf; rw [hql]
        have hnil : q.2.dependencies = [] := by
          have : q.2.dependencies.length = 0 := by exact_mod_cast hp0
          exact List.length_eq_zero.mp this
        rw [hdv, hnil] at hd
        cases hd
    · intro hall
      right
      have hdeps_nil : depsOf s.tasks v = [] := by
        cases hde : depsOf s.tasks v with
        | nil => rfl
        | cons d ds =>
            have := hall d (by rw [hde]; exact List.mem_cons_self _ _)
            cases this
      obtain ⟨q, hq⟩ := hlookup_of_mem v hv
      refine (hqmem v).mpr ⟨(v, q), mem_of_lookup hq, rfl, ?_⟩
      have hqd : q.dependencies = [] := by
        have hdv : depsOf s.tasks v = q.dependencies := by
          unfold depsOf; rw [hq]
        rw [← hdv, hdeps_nil]
      simp [hqd]
  · -- dist_nonneg
    intro v hv
    obtain ⟨t, ht⟩ := hlookup_of_mem v hv
    unfold distVal
    rw [hdstL v, ht]
    simp
  · -- pred_none
    intro v hv _
    obtain ⟨t, ht⟩ := hlookup_of_mem v hv
    unfold distVal
    rw [hdstL v, ht]
    simp
  · -- pred_some: impossible initially
    intro v hv p hp
    obtain ⟨t, ht⟩ := hlookup_of_mem v hv
    rw [hprdL v, ht] at hp
    simp at hp
  · -- edge_low vacuous
    intro u hu
    cases hu

theorem countP_notmem_split (current : Nat) (P : List Nat) (hc : current ∉ P) :
    ∀ l : List Nat,
    l.countP (fun d => decide (d ∉ P ++ [current])) + l.count current
      = l.countP (fun d => decide (d ∉ P)) := by
  intro l
  induction l with
  | nil => rfl
  | cons d l ih =>
      rw [List.countP_cons, List.countP_cons, List.count_cons]
      by_cases hd : d = current
      · have e1 : (decide (d ∉ P ++ [current])) = false := by
          simp [hd]
        have e2 : (decide (d ∉ P)) = true := by
          rw [hd]; simp [hc]
        have e3 : (d == current) = true := by simp [hd]
        rw [e1, e2, e3]
        simp only [show (if (false = true) then (1:Nat) else 0) = 0 from rfl,
          show (if (true = true) then (1:Nat) else 0) = 1 from rfl]
        omega
      · have e1 : (decide (d ∉ P ++ [current])) = decide (d ∉ P) := by
          simp [List.mem_append, hd]
        have e3 : (d == current) = false := by
          simp [hd]
        rw [e1, e3]
        simp only [show (if (false = true) then (1:Nat) else 0) = 0 from rfl]
        omega

/-- The relaxation stage of `processNeighbor` preserves the mid-iteration
invariant and establishes the edge bound towards the neighbor. `D` and `Q`
name the updated `dist`/`pred` maps. -/
theorem relax_preserves (T : List (Nat × Task)) (P : List Nat)
    (current n : Nat) (processed : List Nat) (st : KahnSt)
    (hmid : KahnMid T P current processed st)
    (hnk : n ∈ keysOf T) (hnP : n ∉ P)
    (hcn : current ≠ n) (hcur_dep : current ∈ depsOf T n)
    (hrel : (dictLookup current st.dist).getD 0 + estOf T current
      > (dictLookup n st.dist).getD 0) :
    KahnMid T P current processed
      { st with
        dist := dictInsert n ((dictLookup current st.dist).getD 0 + estOf T current) st.dist,
        pred := dictInsert n (some current) st.pred } := by
  set nd := (dictLookup current st.dist).getD 0 + estOf T current with hnd
  have hdistSomeN : (dictLookup n st.dist).isSome := by
    rw [dictLookup_isSome_iff_mem_keys, hmid.keys_dist]; exact hnk
  have hpredSomeN : (dictLookup n st.pred).isSome := by
    rw [dictLookup_isSome_iff_mem_keys, hmid.keys_pred]; exact hnk
  have hketa : ∀ v, v ≠ n → dictLookup v (dictInsert n nd st.dist) = dictLookup v st.dist :=
    fun v hv => dictLookup_insert_ne _ _ _ _ hv
  have hketa2 : ∀ v, v ≠ n →
      dictLookup v (dictInsert n (some current) st.pred) = dictLookup v st.pred :=
    fun v hv => dictLookup_insert_ne _ _ _ _ hv
  have hDn : dictLookup n (dictInsert n nd st.dist) = some nd := dictLookup_insert_self _ _ _
  have hPn : dictLookup n (dictInsert n (some current) st.pred) = some (some current) :=
    dictLookup_insert_self _ _ _
  refine ⟨hmid.keys_indeg, ?_, ?_, hmid.p_nodup, hmid.p_sub, hmid.q_nodup,
    hmid.q_sub, hmid.pq_disj, hmid.cur_p, hmid.cur_keys, hmid.indeg_eq,
    hmid.member_iff, ?_, ?_, ?_, ?_, ?_⟩
  · show (dictInsert n nd st.dist).map Prod.fst = keysOf T
    rw [dictInsert_keys_of_lookup _ _ _ hdistSomeN]
    exact hmid.keys_dist
  · show (dictInsert n (some current) st.pred).map Prod.fst = keysOf T
    rw [dictInsert_keys_of_lookup _ _ _ hpredSomeN]
    exact hmid.keys_pred
  · -- dist_nonneg
    intro v hv
    show (0:Int) ≤ (dictLookup v (dictInsert n nd st.dist)).getD 0
    by_cases hvn : v = n
    · rw [hvn, hDn]
      have h3 := hmid.dist_nonneg n hnk
      unfold distVal at h3
      simp only [Option.getD_some]
      omega
    · rw [hketa v hvn]
      exact hmid.dist_nonneg v hv
  · -- pred_none
    intro v hv hpred
    show (dictLookup v (dictInsert n nd st.dist)).getD 0 = 0
    replace hpred : dictLookup v (dictInsert n (some current) st.pred) = some none := hpred
    by_cases hvn : v = n
    · rw [hvn, hPn] at hpred
      cases Option.some.inj hpred
    · rw [hketa2 v hvn] at hpred
      rw [hketa v hvn]
      exact hmid.pred_none v hv hpred
  · -- pred_some
    intro v hv p hpred
    replace hpred : dictLookup v (dictInsert n (some current) st.pred) = some (some p) := hpred
    by_cases hvn : v = n
    · rw [hvn, hPn] at hpred
      have hp : current = p := Option.some.inj (Option.some.inj hpred)
      refine ⟨hp ▸ hmid.cur_p, ?_, ?_⟩
      · rw [hvn]
        exact hp ▸ hcur_dep
      · show (dictLookup v (dictInsert n nd st.dist)).getD 0
          = (dictLookup p (dictInsert n nd st.dist)).getD 0 + estOf T p
        have hpne : p ≠ n := hp ▸ hcn
        rw [hvn, hDn, hketa p hpne, ← hp]
        rfl
    · rw [hketa2 v hvn] at hpred
      obtain ⟨hpP, hpdep, heq⟩ := hmid.pred_some v hv p hpred
      have hpne : p ≠ n := fun h => hnP (h ▸ hpP)
      refine ⟨hpP, hpdep, ?_⟩
      show (dictLookup v (dictInsert n nd st.dist)).getD 0
        = (dictLookup p (dictInsert n nd st.dist)).getD 0 + estOf T p
      rw [hketa v hvn, hketa p hpne]
      exact heq
  · -- edge_low_old
    intro u hu hune v hv
    have hun : u ≠ n := fun h => hnP (h ▸ hu)
    show (dictLookup u (dictInsert n nd st.dist)).getD 0 + estOf T u
      ≤ (dictLookup v (dictInsert n nd st.dist)).getD 0
    rw [hketa u hun]
    by_cases hvn : v = n
    · rw [hvn, hDn]
      have h1 := hmid.edge_low_old u hu hune v hv
      unfold distVal at h1
      rw [hvn] at h1
      simp only [Option.getD_some]
      omega
    · rw [hketa v hvn]
      exact hmid.edge_low_old u hu hune v hv
  · -- edge_low_cur
    intro v hv
    show (dictLookup current (dictInsert n nd st.dist)).getD 0 + estOf T current
      ≤ (dictLookup v (dictInsert n nd st.dist)).getD 0
    rw [hketa current hcn]
    by_cases hvn : v = n
    · rw [hvn, hDn]
      have h1 := hmid.edge_low_cur v hv
      unfold distVal at h1
      rw [hvn] at h1
      simp only [Option.getD_some]
      omega
    · rw [hketa v hvn]
      exact hmid.edge_low_cur v hv

/-- One `processNeighbor` call advances the mid-iteration invariant by one
entry of the current task's `blocks` list. -/
theorem processNeighbor_step (T : List (Nat × Task)) (rank : Nat → Nat)
    (hg : GraphOK T rank) (P : List Nat) (current n : Nat)
    (processed remaining : List Nat) (st : KahnSt)
    (hblocks : blocksOf T current = processed ++ n :: remaining)
    (hmid : KahnMid T P current processed st) :
    KahnMid T P current (processed ++ [n]) (processNeighbor T current st n) := by
  have hck := hmid.cur_keys
  have hnk : n ∈ keysOf T := hg.blocks_mem current hck n
    (by rw [hblocks]; exact List.mem_append_right _ (List.mem_cons_self _ _))
  have hccount : List.count n (blocksOf T current) = List.count current (depsOf T n) :=
    hg.consistent current hck n hnk
  have hstrict : List.count n processed + 1 ≤ List.count current (depsOf T n) := by
    rw [← hccount, hblocks, List.count_append, List.count_cons]
    simp
  have hcur_dep : current ∈ depsOf T n := by
    have h0 : 0 < List.count current (depsOf T n) := by omega
    exact List.count_pos_iff.mp h0
  have hnPQ : ¬ (n ∈ P ∨ n ∈ st.queue) := by
    intro hmem
    have h0 := (hmid.member_iff n hnk).mp hmem
    have hie := hmid.indeg_eq n hnk
    have hval := Option.some.inj (hie.symm.trans h0)
    have hc1 : (0:Int) ≤ (((depsOf T n).countP (fun d => decide (d ∉ P))) : Int) :=
      Int.natCast_nonneg _
    omega
  have hnP : n ∉ P := fun h => hnPQ (Or.inl h)
  have hnQ : n ∉ st.queue := fun h => hnPQ (Or.inr h)
  have hcn : current ≠ n := fun h => hnP (h ▸ hmid.cur_p)
  -- stage 1: the relaxation
  obtain ⟨st1, hpn, hmid1, hq1, hbound⟩ :
      ∃ st1 : KahnSt,
        (processNeighbor T current st n =
          (if ((dictLookup n st1.indeg).getD 0 - 1) = 0 then
            { st1 with indeg := dictInsert n ((dictLookup n st1.indeg).getD 0 - 1) st1.indeg,
                       queue := st1.queue ++ [n] }
          else
            { st1 with indeg := dictInsert n ((dictLookup n st1.indeg).getD 0 - 1) st1.indeg })) ∧
        KahnMid T P current processed st1 ∧
        st1.queue = st.queue ∧
        distVal st1 current + estOf T current ≤ distVal st1 n := by
    by_cases hrel : (dictLookup current st.dist).getD 0 + estOf T current
        > (dictLookup n st.dist).getD 0
    · refine ⟨{ st with
          dist := dictInsert n ((dictLookup current st.dist).getD 0 + estOf T current) st.dist,
          pred := dictInsert n (some current) st.pred }, ?_, ?_, rfl, ?_⟩
      · unfold processNeighbor
        dsimp only
        rw [if_pos hrel]
      · exact relax_preserves T P current n processed st hmid hnk hnP hcn hcur_dep hrel
      · show (dictLookup current (dictInsert n
            ((dictLookup current st.dist).getD 0 + estOf T current) st.dist)).getD 0
            + estOf T current
          ≤ (dictLookup n (dictInsert n
            ((dictLookup current st.dist).getD 0 + estOf T current) st.dist)).getD 0
        rw [dictLookup_insert_self, dictLookup_insert_ne _ _ _ _ hcn]
        simp
    · refine ⟨st, ?_, hmid, rfl, ?_⟩
      · unfold processNeighbor
        dsimp only
        rw [if_neg hrel]
      · unfold distVal
        omega
  -- stage 2: the in-degree decrement and the conditional enqueue
  rw [hpn]
  have hie1 := hmid1.indeg_eq n hnk
  have hval : (dictLookup n st1.indeg).getD 0
      = (((depsOf T n).countP (fun d => decide (d ∉ P))) : Int)
        + (List.count current (depsOf T n) : Int) - (List.count n processed : Int) := by
    rw [hie1]; rfl
  have hcount_new : ∀ v, (List.count v (processed ++ [n]) : Int)
      = (List.count v processed : Int) + (if v = n then 1 else 0) := by
    intro v
    rw [List.count_append]
    by_cases hv : v = n
    · rw [hv]; simp
    · simp [List.count_singleton', hv]
  have hindSome1 : (dictLookup n st1.indeg).isSome := by
    rw [dictLookup_isSome_iff_mem_keys, hmid1.keys_indeg]
    exact hnk
  have hkeys_ind : (dictInsert n ((dictLookup n st1.indeg).getD 0 - 1) st1.indeg).map
      Prod.fst = keysOf T := by
    rw [dictInsert_keys_of_lookup _ _ _ hindSome1]
    exact hmid1.keys_indeg
  have hind_v : ∀ v ∈ keysOf T, v ≠ n →
      dictLookup v (dictInsert n ((dictLookup n st1.indeg).getD 0 - 1) st1.indeg)
        = some ((((depsOf T v).countP (fun d => decide (d ∉ P))) : Int)
          + (List.count current (depsOf T v) : Int)
          - (List.count v (processed ++ [n]) : Int)) := by
    intro v hv hvn
    rw [dictLookup_insert_ne _ _ _ _ hvn, hmid1.indeg_eq v hv, hcount_new v]
    simp [hvn]
  have hind_n : dictLookup n (dictInsert n ((dictLookup n st1.indeg).getD 0 - 1) st1.indeg)
      = some ((((depsOf T n).countP (fun d => decide (d ∉ P))) : Int)
        + (List.count current (depsOf T n) : Int)
        - (List.count n (processed ++ [n]) : Int)) := by
    have harith : (dictLookup n st1.indeg).getD 0 - 1
        = (((depsOf T n).countP (fun d => decide (d ∉ P))) : Int)
          + (List.count current (depsOf T n) : Int)
          - (List.count n (processed ++ [n]) : Int) := by
      rw [hval, hcount_new n]
      norm_num
      omega
    rw [dictLookup_insert_self, harith]
  by_cases hz : ((dictLookup n st1.indeg).getD 0 - 1) = 0
  · rw [if_pos hz]
    refine ⟨hkeys_ind, hmid1.keys_dist, hmid1.keys_pred, hmid1.p_nodup, hmid1.p_sub,
      ?_, ?_, ?_, hmid1.cur_p, hmid1.cur_keys, ?_, ?_, hmid1.dist_nonneg,
      hmid1.pred_none, hmid1.pred_some, hmid1.edge_low_old, ?_⟩
    · -- queue nodup
      show (st1.queue ++ [n]).Nodup
      rw [hq1]
      simp [List.nodup_append, hmid.q_nodup, hnQ]
    · -- queue ⊆ keys
      intro x hx
      replace hx : x ∈ st1.queue ++ [n] := hx
      rw [hq1] at hx
      rcases List.mem_append.mp hx with h | h
      · exact hmid.q_sub x h
      · rw [List.mem_singleton.mp h]
        exact hnk
    · -- P disjoint from queue
      intro x hxP hxQ
      replace hxQ : x ∈ st1.queue ++ [n] := hxQ
      rw [hq1] at hxQ
      rcases List.mem_append.mp hxQ with h | h
      · exact hmid.pq_disj x hxP h
      · rw [List.mem_singleton.mp h] at hxP
        exact hnP hxP
    · -- indeg_eq
      intro v hv
      by_cases hvn : v = n
      · rw [hvn]; exact hind_n
      · exact hind_v v hv hvn
    · -- member_iff
      intro v hv
      by_cases hvn : v = n
      · constructor
        · intro _
          rw [hvn, hind_n]
          have hz2 := hz
          rw [hval] at hz2
          have harith2 : (((depsOf T n).countP (fun d => decide (d ∉ P))) : Int)
              + (List.count current (depsOf T n) : Int)
              - (List.count n (processed ++ [n]) : Int) = 0 := by
            rw [hcount_new n]
            have hone : (if n = n then (1:Int) else 0) = 1 := if_pos rfl
            rw [hone]
            omega
          rw [harith2]
        · intro _
          right
          show v ∈ st1.queue ++ [n]
          rw [hvn]
          exact List.mem_append_right _ (List.mem_cons_self _ _)
      · rw [hind_v v hv hvn]
        have h1 := hmid1.member_iff v hv
        rw [hmid1.indeg_eq v hv] at h1
        have h2 : (v ∈ P ∨ v ∈ st1.queue ++ [n]) ↔ (v ∈ P ∨ v ∈ st1.queue) := by
          constructor
          · rintro (h | h)
            · exact Or.inl h
            · rcases List.mem_append.mp h with h | h
              · exact Or.inr h
              · exact absurd (List.mem_singleton.mp h) hvn
          · rintro (h | h)
            · exact Or.inl h
            · exact Or.inr (List.mem_append_left _ h)
        refine Iff.trans h2 (Iff.trans h1 ?_)
        rw [hcount_new v]
        simp [hvn]
    · -- edge_low_cur over the extended prefix
      intro v hv
      rcases List.mem_append.mp hv with h | h
      · exact hmid1.edge_low_cur v h
      · rw [List.mem_singleton.mp h]
        exact hbound
  · rw [if_neg hz]
    refine ⟨hkeys_ind, hmid1.keys_dist, hmid1.keys_pred, hmid1.p_nodup, hmid1.p_sub,
      hmid1.q_nodup, hmid1.q_sub, hmid1.pq_disj, hmid1.cur_p, hmid1.cur_keys,
      ?_, ?_, hmid1.dist_nonneg, hmid1.pred_none, hmid1.pred_some,
      hmid1.edge_low_old, ?_⟩
    · intro v hv
      by_cases hvn : v = n
      · rw [hvn]; exact hind_n
      · exact hind_v v hv hvn
    · intro v hv
      by_cases hvn : v = n
      · constructor
        · intro hmem
          exfalso
          rcases hmem with h | h
          · exact hnP (hvn ▸ h)
          · rw [hq1, hvn] at h
            exact hnQ h
        · intro hmem
          exfalso
          rw [hvn, hind_n, hcount_new n] at hmem
          have hone : (if n = n then (1:Int) else 0) = 1 := if_pos rfl
          rw [hone] at hmem
          have h3 := Option.some.inj hmem
          rw [hval] at hz
          omega
      · rw [hind_v v hv hvn]
        have h1 := hmid1.member_iff v hv
        rw [hmid1.indeg_eq v hv] at h1
        refine Iff.trans h1 ?_
        rw [hcount_new v]
        simp [hvn]
    · intro v hv
      rcases List.mem_append.mp hv with h | h
      · exact hmid1.edge_low_cur v h
      · rw [List.mem_singleton.mp h]
        exact hbound

/-- Folding `processNeighbor` over the remaining entries of the current
task's `blocks` list carries the mid-iteration invariant over the whole
list. -/
theorem processBlocks_fold (T : List (Nat × Task)) (rank : Nat → Nat)
    (hg : GraphOK T rank) (P : List Nat) (current : Nat) :
    ∀ (remaining processed : List Nat) (st : KahnSt),
    blocksOf T current = processed ++ remaining →
    KahnMid T P current processed st →
    KahnMid T P current (processed ++ remaining)
      (remaining.foldl (processNeighbor T current) st) := by
  intro remaining
  induction remaining with
  | nil =>
      intro processed st _ hmid
      rw [List.append_nil]
      exact hmid
  | cons n rest ih =>
      intro processed st hblocks hmid
      have hstep := processNeighbor_step T rank hg P current n processed rest st
        hblocks hmid
      have hblocks2 : blocksOf T current = (processed ++ [n]) ++ rest := by
        rw [hblocks, List.append_assoc]
        rfl
      have hrec := ih (processed ++ [n]) (processNeighbor T current st n) hblocks2 hstep
      have he : (processed ++ [n]) ++ rest = processed ++ n :: rest := by
        rw [List.append_assoc]
        rfl
      rw [← he]
      exact hrec

/-- Popping the head of the queue converts the between-iterations invariant
into the mid-iteration invariant with an empty processed prefix. -/
theorem pop_step (T : List (Nat × Task)) (P : List Nat)
    (current : Nat) (rest : List Nat) (st : KahnSt)
    (hinv : KahnInv T P st) (hq : st.queue = current :: rest) :
    KahnMid T (P ++ [current]) current [] { st with queue := rest } := by
  have hcq : current ∈ st.queue := by
    rw [hq]
    exact List.mem_cons_self _ _
  have hcP : current ∉ P := fun h => hinv.pq_disj current h hcq
  have hck : current ∈ keysOf T := hinv.q_sub current hcq
  have hqd := hinv.q_nodup
  rw [hq] at hqd
  have hrest_nodup : rest.Nodup := (List.nodup_cons.mp hqd).2
  have hcrest : current ∉ rest := (List.nodup_cons.mp hqd).1
  refine ⟨hinv.keys_indeg, hinv.keys_dist, hinv.keys_pred, ?_, ?_, hrest_nodup,
    ?_, ?_, List.mem_append_right _ (List.mem_cons_self _ _), hck, ?_, ?_,
    hinv.dist_nonneg, hinv.pred_none, ?_, ?_, ?_⟩
  · -- P ++ [current] nodup
    simp [List.nodup_append, hinv.p_nodup, hcP]
  · -- P ++ [current] ⊆ keys
    intro x hx
    rcases List.mem_append.mp hx with h | h
    · exact hinv.p_sub x h
    · rw [List.mem_singleton.mp h]
      exact hck
  · -- rest ⊆ keys
    intro x hx
    replace hx : x ∈ rest := hx
    refine hinv.q_sub x ?_
    rw [hq]
    exact List.mem_cons_of_mem _ hx
  · -- disjointness
    intro x hxP hxQ
    replace hxQ : x ∈ rest := hxQ
    rcases List.mem_append.mp hxP with h | h
    · refine hinv.pq_disj x h ?_
      rw [hq]
      exact List.mem_cons_of_mem _ hxQ
    · rw [List.mem_singleton.mp h] at hxQ
      exact hcrest hxQ
  · -- indeg_eq with empty processed prefix
    intro v hv
    have h1 : dictLookup v st.indeg
        = some (((depsOf T v).countP (fun d => decide (d ∉ P)) : Int)) :=
      hinv.indeg_eq v hv
    have h2 := countP_notmem_split current P hcP (depsOf T v)
    show dictLookup v st.indeg = _
    rw [h1]
    congr 1
    have h0 : (List.count v ([] : List Nat) : Int) = 0 := rfl
    rw [h0]
    omega
  · -- member_iff in indeg form
    intro v hv
    have h1 := hinv.member_iff v hv
    have h2 := hinv.indeg_eq v hv
    constructor
    · intro hmem
      show dictLookup v st.indeg = some 0
      rw [h2]
      have hd : ∀ d ∈ depsOf T v, d ∈ P := by
        apply h1.mp
        rcases hmem with hm | hm
        · rcases List.mem_append.mp hm with h | h
          · exact Or.inl h
          · right
            rw [hq, List.mem_singleton.mp h]
            exact List.mem_cons_self _ _
        · right
          rw [hq]
          exact List.mem_cons_of_mem _ hm
      have hz : (depsOf T v).countP (fun d => decide (d ∉ P)) = 0 := by
        rw [List.countP_eq_zero]
        intro d hdm
        simp [hd d hdm]
      rw [hz]
      rfl
    · intro hmem
      replace hmem : dictLookup v st.indeg = some 0 := hmem
      rw [h2] at hmem
      have h3 := Option.some.inj hmem
      have hz : (depsOf T v).countP (fun d => decide (d ∉ P)) = 0 := by omega
      have hd : ∀ d ∈ depsOf T v, d ∈ P := by
        rw [List.countP_eq_zero] at hz
        intro d hdm
        have h4 := hz d hdm
        simp at h4
        exact h4
      rcases h1.mpr hd with h | h
      · exact Or.inl (List.mem_append_left _ h)
      · rw [hq] at h
        rcases List.mem_cons.mp h with h | h
        · refine Or.inl (List.mem_append_right _ ?_)
          rw [h]
          exact List.mem_cons_self _ _
        · exact Or.inr h
  · -- pred_some, with the popped set grown
    intro v hv p hpred
    obtain ⟨hpP, hpd, heq⟩ := hinv.pred_some v hv p hpred
    exact ⟨List.mem_append_left _ hpP, hpd, heq⟩
  · -- edge_low for previously popped tasks
    intro u hu hune v hvb
    rcases List.mem_append.mp hu with h | h
    · exact hinv.edge_low u h v hvb
    · exact absurd (List.mem_singleton.mp h) hune
  · -- edge_low_cur over the empty prefix
    intro v hv
    exact absurd hv (List.not_mem_nil v)

/-- After the whole `blocks` list of the current task has been processed,
the mid-iteration invariant collapses back to the between-iterations
invariant. -/
theorem mid_close (T : List (Nat × Task)) (rank : Nat → Nat)
    (hg : GraphOK T rank) (P : List Nat) (current : Nat) (st : KahnSt)
    (hmid : KahnMid T P current (blocksOf T current) st) :
    KahnInv T P st := by
  have hind : ∀ v ∈ keysOf T, dictLookup v st.indeg
      = some (((depsOf T v).countP (fun d => decide (d ∉ P)) : Int)) := by
    intro v hv
    have hcc : List.count v (blocksOf T current) = List.count current (depsOf T v) :=
      hg.consistent current hmid.cur_keys v hv
    rw [hmid.indeg_eq v hv, hcc]
    congr 1
    omega
  refine ⟨hmid.keys_indeg, hmid.keys_dist, hmid.keys_pred, hmid.p_nodup,
    hmid.p_sub, hmid.q_nodup, hmid.q_sub, hmid.pq_disj, hind, ?_,
    hmid.dist_nonneg, hmid.pred_none, hmid.pred_some, ?_⟩
  · -- member_iff back in dependency form
    intro v hv
    refine Iff.trans (hmid.member_iff v hv) ?_
    rw [hind v hv]
    constructor
    · intro h
      have h3 := Option.some.inj h
      have hz : (depsOf T v).countP (fun d => decide (d ∉ P)) = 0 := by omega
      rw [List.countP_eq_zero] at hz
      intro d hdm
      have h4 := hz d hdm
      simp at h4
      exact h4
    · intro hd
      have hz : (depsOf T v).countP (fun d => decide (d ∉ P)) = 0 := by
        rw [List.countP_eq_zero]
        intro d hdm
        simp [hd d hdm]
      rw [hz]
      rfl
  · -- edge_low, merging the old and current cases
    intro u hu v hvb
    by_cases huc : u = current
    · subst huc
      exact hmid.edge_low_cur v hvb
    · exact hmid.edge_low_old u hu huc v hvb

/-- One full iteration of the `while queue:` loop advances the invariant,
growing the popped list by the popped task. -/
theorem kahn_iter (T : List (Nat × Task)) (rank : Nat → Nat)
    (hg : GraphOK T rank) (P : List Nat) (current : Nat) (rest : List Nat)
    (st : KahnSt) (hinv : KahnInv T P st) (hq : st.queue = current :: rest) :
    KahnInv T (P ++ [current])
      ((blocksOf T current).foldl (processNeighbor T current)
        { st with queue := rest }) := by
  have h1 := pop_step T P current rest st hinv hq
  have h2 := processBlocks_fold T rank hg (P ++ [current]) current
    (blocksOf T current) [] { st with queue := rest } rfl h1
  rw [List.nil_append] at h2
  exact mid_close T rank hg (P ++ [current]) current _ h2

theorem nodup_subset_length_le (a b : List Nat) (h1 : a.Nodup)
    (hsub : ∀ x ∈ a, x ∈ b) : a.length ≤ b.length :=
  (List.subperm_of_subset h1 hsub).length_le

/-- Running the loop with enough fuel drains the queue while preserving the
invariant; the popped list only grows. `tasks.length` fuel always
suffices because every queue entry is a distinct store key. -/
theorem kahnLoop_inv (T : List (Nat × Task)) (rank : Nat → Nat)
    (hg : GraphOK T rank) :
    ∀ (fuel : Nat) (P : List Nat) (st : KahnSt),
    KahnInv T P st → (keysOf T).length ≤ P.length + fuel →
    ∃ P2, (∀ x ∈ P, x ∈ P2) ∧ KahnInv T P2 (kahnLoop T fuel st)
      ∧ (kahnLoop T fuel st).queue = [] := by
  intro fuel
  induction fuel with
  | zero =>
      intro P st hinv hlen
      refine ⟨P, fun x h => h, hinv, ?_⟩
      show st.queue = []
      have hnd : (P ++ st.queue).Nodup :=
        hinv.p_nodup.append hinv.q_nodup (fun a ha hb => hinv.pq_disj a ha hb)
      have hsub : ∀ x ∈ P ++ st.queue, x ∈ keysOf T := by
        intro x hx
        rcases List.mem_append.mp hx with h | h
        · exact hinv.p_sub x h
        · exact hinv.q_sub x h
      have hle := nodup_subset_length_le _ _ hnd hsub
      rw [List.length_append] at hle
      have hq0 : st.queue.length = 0 := by omega
      exact List.eq_nil_of_length_eq_zero hq0
  | succ fuel ih =>
      intro P st hinv hlen
      rcases hq : st.queue with _ | ⟨current, rest⟩
      · have he : kahnLoop T (fuel + 1) st = st := by
          unfold kahnLoop
          rw [hq]
        rw [he]
        exact ⟨P, fun x h => h, hinv, hq⟩
      · have hstep := kahn_iter T rank hg P current rest st hinv hq
        have he : kahnLoop T (fuel + 1) st
            = kahnLoop T fuel ((blocksOf T current).foldl (processNeighbor T current)
                { st with queue := rest }) := by
          conv_lhs => rw [kahnLoop]
          rw [hq]
        have hlen2 : (keysOf T).length ≤ (P ++ [current]).length + fuel := by
          rw [List.length_append]
          simp only [List.length_singleton]
          omega
        obtain ⟨P2, hmono, hinv2, hq2⟩ := ih (P ++ [current]) _ hstep hlen2
        rw [he]
        exact ⟨P2, fun x hx => hmono x (List.mem_append_left _ hx), hinv2, hq2⟩

/-- When the queue has drained, every store key has been popped: keys are
processed in an order compatible with the rank function, so a key all of
whose dependencies are popped is itself popped, by strong induction on its
rank. -/
theorem kahn_complete (T : List (Nat × Task)) (rank : Nat → Nat)
    (hg : GraphOK T rank) (P : List Nat) (st : KahnSt)
    (hinv : KahnInv T P st) (hq : st.queue = []) :
    ∀ v ∈ keysOf T, v ∈ P := by
  have hstrong : ∀ r : Nat, ∀ v ∈ keysOf T, rank v < r → v ∈ P := by
    intro r
    induction r with
    | zero =>
        intro v _ h
        omega
    | succ r ih =>
        intro v hv hr
        have hd : ∀ d ∈ depsOf T v, d ∈ P := by
          intro d hdm
          have hdk : d ∈ keysOf T := hg.deps_mem v hv d hdm
          have hrd : rank d < rank v := hg.ranked v hv d hdm
          exact ih d hdk (by omega)
        rcases (hinv.member_iff v hv).mpr hd with h | h
        · exact h
        · rw [hq] at h
          exact absurd h (List.not_mem_nil v)
  intro v hv
  exact hstrong (rank v + 1) v hv (Nat.lt_succ_self _)

/-- At the drained final state, every dependency edge is relaxed: the
distance of a task dominates the distance-plus-estimate of each of its
dependencies. -/
theorem final_edge_bound (T : List (Nat × Task)) (rank : Nat → Nat)
    (hg : GraphOK T rank) (P : List Nat) (st : KahnSt)
    (hinv : KahnInv T P st) (hq : st.queue = [])
    (v : Nat) (hv : v ∈ keysOf T) (d : Nat) (hd : d ∈ depsOf T v) :
    distVal st d + estOf T d ≤ distVal st v := by
  have hdk : d ∈ keysOf T := hg.deps_mem v hv d hd
  have hdP : d ∈ P := kahn_complete T rank hg P st hinv hq d hdk
  have hcount : List.count v (blocksOf T d) = List.count d (depsOf T v) :=
    hg.consistent d hdk v hv
  have hvb : v ∈ blocksOf T d := by
    have h0 : 0 < List.count d (depsOf T v) := List.count_pos_iff.mpr hd
    have h1 : 0 < List.count v (blocksOf T d) := by omega
    exact List.count_pos_iff.mp h1
  exact hinv.edge_low d hdP v hvb

theorem pathSum_singleton (s : DependencyTracker) (v : Nat) :
    pathSum s [v] = estOf s.tasks v := by
  simp only [pathSum, List.map_cons, List.map_nil, List.sum_cons, List.sum_nil,
    estOf]
  cases dictLookup v s.tasks <;> simp

theorem pathSum_cons (s : DependencyTracker) (v : Nat) (p : List Nat) :
    pathSum s (v :: p) = estOf s.tasks v + pathSum s p := by
  simp only [pathSum, List.map_cons, List.sum_cons, estOf]

theorem pathSum_append (s : DependencyTracker) (p q : List Nat) :
    pathSum s (p ++ q) = pathSum s p + pathSum s q := by
  simp [pathSum]

theorem validPathB_head_isSome (s : DependencyTracker) (v : Nat) (p : List Nat)
    (h : validPathB s (v :: p) = true) : (dictLookup v s.tasks).isSome := by
  cases p with
  | nil => exact h
  | cons w rest =>
      simp only [validPathB, Bool.and_eq_true] at h
      exact h.1.1

/-- Appending a task that depends on the last entry of a valid path keeps
the path valid. -/
theorem validPathB_snoc (s : DependencyTracker) :
    ∀ (q : List Nat) (p v : Nat), validPathB s q = true → q.getLast? = some p →
    p ∈ depsOf s.tasks v → (dictLookup v s.tasks).isSome = true →
    validPathB s (q ++ [v]) = true := by
  intro q
  induction q with
  | nil =>
      intro p v h _ _ _
      simp [validPathB] at h
  | cons a t ih =>
      intro p v h hlast hdep hsome
      cases t with
      | nil =>
          have hp : a = p := by simpa using hlast
          obtain ⟨tv, htv⟩ := Option.isSome_iff_exists.mp hsome
          have h1 : (dictLookup a s.tasks).isSome = true := h
          have h2 : a ∈ tv.dependencies := by
            rw [hp]
            have hdeq : depsOf s.tasks v = tv.dependencies := by
              unfold depsOf
              rw [htv]
            rw [hdeq] at hdep
            exact hdep
          simp [validPathB, htv, h1, h2, hsome]
      | cons b t2 =>
          simp only [validPathB, Bool.and_eq_true] at h
          obtain ⟨⟨ha, hedge⟩, hrest⟩ := h
          have hlast2 : (b :: t2).getLast? = some p := by
            rw [List.getLast?_cons_cons] at hlast
            exact hlast
          have hihr := ih p v hrest hlast2 hdep hsome
          show validPathB s (a :: b :: (t2 ++ [v])) = true
          simp only [validPathB, Bool.and_eq_true]
          exact ⟨⟨ha, hedge⟩, hihr⟩

/-- A relaxed distance map bounds every dependency-respecting path: the sum
of estimates along the path, plus the distance of its first entry, is at
most distance-plus-estimate of its last entry. -/
theorem path_le_aux (s : DependencyTracker) (st : KahnSt)
    (hedge : ∀ v ∈ keysOf s.tasks, ∀ d ∈ depsOf s.tasks v,
      distVal st d + estOf s.tasks d ≤ distVal st v) :
    ∀ (p : List Nat) (v w : Nat), validPathB s (v :: p) = true →
    (v :: p).getLast? = some w →
    distVal st v + pathSum s (v :: p) ≤ distVal st w + estOf s.tasks w := by
  intro p
  induction p with
  | nil =>
      intro v w h hlast
      have hw : v = w := by simpa using hlast
      subst hw
      rw [pathSum_singleton]
  | cons b t ih =>
      intro v w h hlast
      simp only [validPathB, Bool.and_eq_true] at h
      obtain ⟨⟨ha, hedge1⟩, hrest⟩ := h
      have hbsome : (dictLookup b s.tasks).isSome = true :=
        validPathB_head_isSome s b t hrest
      obtain ⟨tb, htb⟩ := Option.isSome_iff_exists.mp hbsome
      have hvdep : v ∈ depsOf s.tasks b := by
        have hmem : v ∈ tb.dependencies := by
          rw [htb] at hedge1
          simpa using hedge1
        unfold depsOf
        rw [htb]
        exact hmem
      have hbk : b ∈ keysOf s.tasks :=
        (dictLookup_isSome_iff_mem_keys b s.tasks).mp hbsome
      have hvb := hedge b hbk v hvdep
      have hlast2 : (b :: t).getLast? = some w := by
        rw [List.getLast?_cons_cons] at hlast
        exact hlast
      have hih := ih b w hrest hlast2
      rw [pathSum_cons]
      omega

theorem countP_le_of_imp (p q : Nat → Bool) :
    ∀ l : List Nat, (∀ a ∈ l, p a = true → q a = true) →
    l.countP p ≤ l.countP q := by
  intro l
  induction l with
  | nil => intro _; exact Nat.le_refl 0
  | cons a t ih =>
      intro himp
      rw [List.countP_cons, List.countP_cons]
      have ht := ih (fun x hx hp => himp x (List.mem_cons_of_mem _ hx) hp)
      have hif : (if p a = true then (1:Nat) else 0) ≤ (if q a = true then 1 else 0) := by
        by_cases hpa : p a = true
        · rw [if_pos hpa, if_pos (himp a (List.mem_cons_self _ _) hpa)]
        · rw [if_neg hpa]
          exact Nat.zero_le _
      omega

theorem countP_lt_of_strict (p q : Nat → Bool) :
    ∀ l : List Nat, (∀ a ∈ l, p a = true → q a = true) →
    ∀ b ∈ l, q b = true → p b = false →
    l.countP p < l.countP q := by
  intro l
  induction l with
  | nil =>
      intro _ b hb _ _
      exact absurd hb (List.not_mem_nil b)
  | cons a t ih =>
      intro himp b hb hqb hpb
      rw [List.countP_cons, List.countP_cons]
      have himpt : ∀ x ∈ t, p x = true → q x = true :=
        fun x hx hp => himp x (List.mem_cons_of_mem _ hx) hp
      rcases List.mem_cons.mp hb with hba | hbt
      · have hqa : q a = true := hba ▸ hqb
        have hpa : p a = false := hba ▸ hpb
        have e1 : (if p a = true then (1:Nat) else 0) = 0 := by
          simp [hpa]
        have e2 : (if q a = true then (1:Nat) else 0) = 1 := by
          simp [hqa]
        rw [e1, e2]
        have ht := countP_le_of_imp p q t himpt
        omega
      · have ht := ih himpt b hbt hqb hpb
        have hif : (if p a = true then (1:Nat) else 0) ≤ (if q a = true then 1 else 0) := by
          by_cases hpa : p a = true
          · rw [if_pos hpa, if_pos (himp a (List.mem_cons_self _ _) hpa)]
          · rw [if_neg hpa]
            exact Nat.zero_le _
        omega

/-- The predecessor walk from a store key follows a chain that strictly
decreases rank, so with enough fuel it produces (in reverse) a valid
dependency-respecting path ending at the start key, whose estimate sum is
exactly the key's distance plus estimate. -/
theorem reconstruct_spec (s : DependencyTracker) (rank : Nat → Nat)
    (hg : GraphOK s.tasks rank) (P : List Nat) (st : KahnSt)
    (hinv : KahnInv s.tasks P st) :
    ∀ (fuel : Nat) (v : Nat), v ∈ keysOf s.tasks →
    (keysOf s.tasks).countP (fun u => decide (rank u ≤ rank v)) ≤ fuel →
    validPathB s (reconstruct st.pred fuel v).reverse = true ∧
    (reconstruct st.pred fuel v).reverse.getLast? = some v ∧
    pathSum s (reconstruct st.pred fuel v).reverse
      = distVal st v + estOf s.tasks v := by
  intro fuel
  induction fuel with
  | zero =>
      intro v hv hm
      exfalso
      have h1 : 0 < (keysOf s.tasks).countP (fun u => decide (rank u ≤ rank v)) :=
        List.countP_pos_iff.mpr ⟨v, hv, by simp⟩
      omega
  | succ fuel ih =>
      intro v hv hm
      have hpredSome : (dictLookup v st.pred).isSome := by
        rw [dictLookup_isSome_iff_mem_keys, hinv.keys_pred]
        exact hv
      have hvsome : (dictLookup v s.tasks).isSome := by
        rw [dictLookup_isSome_iff_mem_keys]
        exact hv
      obtain ⟨po, hpo⟩ := Option.isSome_iff_exists.mp hpredSome
      cases po with
      | none =>
          have hd0 : distVal st v = 0 := hinv.pred_none v hv hpo
          have hrec : reconstruct st.pred (fuel + 1) v = [v] := by
            unfold reconstruct
            rw [hpo]
          rw [hrec, List.reverse_singleton]
          refine ⟨hvsome, by simp, ?_⟩
          rw [hd0, pathSum_singleton]
          omega
      | some p =>
          obtain ⟨hpP, hpdep, hdeq⟩ := hinv.pred_some v hv p hpo
          have hpk : p ∈ keysOf s.tasks := hg.deps_mem v hv p hpdep
          have hrank : rank p < rank v := hg.ranked v hv p hpdep
          have hmp : (keysOf s.tasks).countP (fun u => decide (rank u ≤ rank p))
              ≤ fuel := by
            have hlt := countP_lt_of_strict (fun u => decide (rank u ≤ rank p))
              (fun u => decide (rank u ≤ rank v)) (keysOf s.tasks)
              (fun a _ ha => by
                simp only [decide_eq_true_eq] at ha ⊢
                omega)
              v hv (by simp) (by simp; omega)
            omega
          obtain ⟨hval, hlast, hsum⟩ := ih p hpk hmp
          have hrec : reconstruct st.pred (fuel + 1) v
              = v :: reconstruct st.pred fuel p := by
            conv_lhs => rw [reconstruct]
            rw [hpo]
          rw [hrec, List.reverse_cons]
          refine ⟨?_, ?_, ?_⟩
          · exact validPathB_snoc s (reconstruct st.pred fuel p).reverse p v
              hval hlast hpdep hvsome
          · rw [List.getLast?_append_cons]
            simp
          · rw [pathSum_append, pathSum_singleton, hsum, hdeq]

theorem maxByValGo_mem (k : Nat) (v : Int) :
    ∀ l : List (Nat × Int), maxByValGo k v l = k ∨ maxByValGo k v l ∈ l.map Prod.fst := by
  intro l
  induction l generalizing k v with
  | nil => exact Or.inl rfl
  | cons p rest ih =>
      obtain ⟨k1, v1⟩ := p
      have he0 : maxByValGo k v ((k1, v1) :: rest)
          = if v1 > v then maxByValGo k1 v1 rest else maxByValGo k v rest := rfl
      by_cases hgt : v1 > v
      · have he : maxByValGo k v ((k1, v1) :: rest) = maxByValGo k1 v1 rest := by
          rw [he0, if_pos hgt]
        rw [he]
        rcases ih k1 v1 with h | h
        · right
          rw [h]
          exact List.mem_cons_self _ _
        · right
          exact List.mem_cons_of_mem _ h
      · have he : maxByValGo k v ((k1, v1) :: rest) = maxByValGo k v rest := by
          rw [he0, if_neg hgt]
        rw [he]
        rcases ih k v with h | h
        · exact Or.inl h
        · right
          exact List.mem_cons_of_mem _ h

theorem maxByVal_mem (l : List (Nat × Int)) (k : Nat) (h : maxByVal l = some k) :
    k ∈ l.map Prod.fst := by
  cases l with
  | nil => cases h
  | cons p rest =>
      obtain ⟨k0, v0⟩ := p
      have hk : maxByValGo k0 v0 rest = k := Option.some.inj h
      subst hk
      rcases maxByValGo_mem k0 v0 rest with h2 | h2
      · rw [h2]
        exact List.mem_cons_self _ _
      · exact List.mem_cons_of_mem _ h2

/-- The packaged outcome of the whole Kahn loop on a store: an invariant
state with a drained queue in which every store key has been popped. -/
theorem kahnFinal_spec (s : DependencyTracker) (rank : Nat → Nat)
    (hg : GraphOK s.tasks rank) :
    ∃ P, KahnInv s.tasks P (kahnFinal s) ∧ (kahnFinal s).queue = []
      ∧ ∀ v ∈ keysOf s.tasks, v ∈ P := by
  have h0 := kahnInit_inv s rank hg
  have hlen : (keysOf s.tasks).length ≤ ([] : List Nat).length + s.tasks.length := by
    simp [keysOf]
  obtain ⟨P, _, hinv, hq⟩ := kahnLoop_inv s.tasks rank hg s.tasks.length []
    (kahnInit s) h0 hlen
  exact ⟨P, hinv, hq, kahn_complete s.tasks rank hg P _ hinv hq⟩

/-- The store of the C1 counterexample: an isolated 10-day task (id 0) next
to a two-task chain (1 → 2) of one day each. -/
def storeC1 : DependencyTracker :=
  (DependencyTracker.add_task
    ((DependencyTracker.add_task
      ((DependencyTracker.add_task DependencyTracker.init
          0 "solo" "x" 10 [] Priority.medium [] []).2)
      1 "first" "x" 1 [] Priority.medium [] []).2)
    2 "second" "x" 1 [1] Priority.medium [] []).2

/-- C1 counterexample: on `storeC1` the premises of the claim hold (unique
keys, dependencies and blocks referencing stored tasks and mutually
inverse, acyclicity witnessed by the identity rank), yet
`calculate_critical_path` reports `total_duration = 2` — the 1 → 2 chain —
while the dependency-respecting path `[0]` sums to 10 > 2. The code picks
the end task by maximal `distance` alone, ignoring the task's own
`estimated_days`, so the returned path is not globally maximal. -/
theorem C1_counterexample :
    GraphOK storeC1.tasks (fun v => v) ∧
    validPathB storeC1 [0] = true ∧
    pathSum storeC1 [0] = 10 ∧
    (calculate_critical_path storeC1).map CriticalPath.total_duration = some 2 := by
  exact ⟨⟨by decide, by decide, by decide, by decide, by decide⟩,
    by decide, by decide, by decide⟩

/-- C1 (amended): on every nonempty store with unique keys whose
`dependencies` and `blocks` lists reference stored tasks, are multiset
inverses of each other, and form an acyclic graph (a rank function
witnesses acyclicity), `calculate_critical_path` succeeds, and its result
satisfies the claim restricted to the returned endpoint: `total_duration`
is exactly the sum of `estimated_days` over the returned `path`, the
returned path is dependency-respecting, and every dependency-respecting
path that ends at the same final task as the returned path has estimate
sum at most `total_duration`. (Global maximality over all paths fails —
see the counterexample — because the code selects the end task by maximal
`distance` alone rather than `distance + estimated_days`.) -/
theorem critical_path_amended (s : DependencyTracker) (rank : Nat → Nat)
    (hg : GraphOK s.tasks rank) (hne : s.tasks ≠ []) :
    ∃ cp, calculate_critical_path s = some cp ∧
      validPathB s cp.path = true ∧
      pathSum s cp.path = cp.total_duration ∧
      ∀ q, validPathB s q = true → q.getLast? = cp.path.getLast? →
        pathSum s q ≤ cp.total_duration := by
  obtain ⟨P, hinv, hq, hcomp⟩ := kahnFinal_spec s rank hg
  have hkeys_ne : keysOf s.tasks ≠ [] := by
    intro h
    apply hne
    cases ht : s.tasks with
    | nil => rfl
    | cons p rest =>
        rw [ht] at h
        simp [keysOf] at h
  have hdist_ne : (kahnFinal s).dist ≠ [] := by
    intro h
    apply hkeys_ne
    rw [← hinv.keys_dist, h]
    rfl
  obtain ⟨endT, hmax⟩ : ∃ e, maxByVal (kahnFinal s).dist = some e := by
    rcases hd : (kahnFinal s).dist with _ | ⟨⟨k0, v0⟩, rest⟩
    · exact absurd hd hdist_ne
    · exact ⟨maxByValGo k0 v0 rest, rfl⟩
  have hek : endT ∈ keysOf s.tasks := by
    have h1 := maxByVal_mem (kahnFinal s).dist endT hmax
    rw [hinv.keys_dist] at h1
    exact h1
  have hmle : (keysOf s.tasks).countP (fun u => decide (rank u ≤ rank endT))
      ≤ s.tasks.length := by
    have h1 : (keysOf s.tasks).countP (fun u => decide (rank u ≤ rank endT))
        ≤ (keysOf s.tasks).length := List.countP_le_length _
    have h2 : (keysOf s.tasks).length = s.tasks.length := List.length_map _ _
    omega
  obtain ⟨hval, hlast, hsum⟩ := reconstruct_spec s rank hg P (kahnFinal s) hinv
    s.tasks.length endT hek hmle
  have hedge : ∀ v ∈ keysOf s.tasks, ∀ d ∈ depsOf s.tasks v,
      distVal (kahnFinal s) d + estOf s.tasks d ≤ distVal (kahnFinal s) v :=
    fun v hv d hd => final_edge_bound s.tasks rank hg P (kahnFinal s) hinv hq v hv d hd
  rw [calculate_critical_path.eq_def]
  simp only [hmax]
  refine ⟨_, rfl, hval, hsum, ?_⟩
  intro q hvq hlq
  have hlq2 : q.getLast? = some endT := hlq.trans hlast
  cases q with
  | nil => simp [validPathB] at hvq
  | cons h0 t0 =>
      have hh := validPathB_head_isSome s h0 t0 hvq
      have hhk : h0 ∈ keysOf s.tasks :=
        (dictLookup_isSome_iff_mem_keys h0 s.tasks).mp hh
      have hnn := hinv.dist_nonneg h0 hhk
      have hle := path_le_aux s (kahnFinal s) hedge t0 h0 endT hvq hlq2
      show pathSum s (h0 :: t0)
        ≤ (dictLookup endT (kahnFinal s).dist).getD 0 + estOf s.tasks endT
      unfold distVal at hle hnn
      omega

/-- Witness for the amended C1 theorem at the concrete `storeC1` with the
identity rank function. -/
theorem C1_witness :
    ∃ cp, calculate_critical_path storeC1 = some cp ∧
      validPathB storeC1 cp.path = true ∧
      pathSum storeC1 cp.path = cp.total_duration ∧
      ∀ q, validPathB storeC1 q = true → q.getLast? = cp.path.getLast? →
        pathSum storeC1 q ≤ cp.total_duration :=
  critical_path_amended storeC1 (fun v => v)
    ⟨by decide, by decide, by decide, by decide, by decide⟩ (by decide)

end DepTrack
